import Mathlib

/-!
The program `elcorecl-run`: core-set resolution, argument packing, launch and teardown.

A shallow embedding of `src/elcorecl-run.cc`. The same code is repeated in
`src/cl-double.cc`, whose option loop differs: both loops are embedded.

Conventions of the embedding:

* a `std::string` / C string is a `List Char`; a byte of the argument buffer is a `Nat`;
* `std::set<ecl_uint>` is a strictly ascending `List Nat` (iteration order of the set);
* `int` values coming from user text (`std::stoi`) keep their 32-bit range: a value
  outside of it is the exception `std::out_of_range`;
* `size_t` arithmetic of `AllocateAlign` is modulo `2 ^ 64`;
* device counts, core indices of selected devices and the loop counters over them are
  natural numbers (they stay far below `2 ^ 31`, where `int` counters and `%d` are exact);
* calls into the ElcoreCL runtime are events of a trace, their results come from an
  oracle (`Runtime`, and `BufferRuntime` for the creation of the buffers);
* the options of the command line are taken as `getopt_long` returns them (`Opt`).
-/

namespace ElcoreclRun

/-! ## Strings and `std::stoi` -/

/-- Ways in which `parse_cores` can end without returning a set. -/
inductive Failure where
  /-- `std::invalid_argument`, thrown by `std::stoi` when no conversion can be done. -/
  | invalid_argument
  /-- `std::out_of_range`, thrown by `std::stoi` when the value does not fit an `int`. -/
  | out_of_range
  /-- signed overflow of `++core` in the range loop (undefined behaviour). -/
  | int_overflow
  /-- the embedding ran out of fuel (never happens with the fuel `parse_cores` gives). -/
  | fuel
  deriving DecidableEq, Repr

/-- Largest value of a 32-bit `int`. -/
def INT_MAX : Int := 2147483647

/-- Smallest value of a 32-bit `int`. -/
def INT_MIN : Int := -2147483648

/-- The characters `isspace` accepts in the C locale: space and `\t \n \v \f \r`. -/
def isspace (c : Char) : Bool :=
  c.toNat == 32 || (9 ≤ c.toNat && c.toNat ≤ 13)

/-- Decimal digit test, `'0' .. '9'`. -/
def isdigit (c : Char) : Bool :=
  48 ≤ c.toNat && c.toNat ≤ 57

/-- Value of a decimal digit character. -/
def digit_value (c : Char) : Nat := c.toNat - 48

/-- Value of a run of decimal digits, most significant first. -/
def digits_value (ds : List Char) : Nat :=
  ds.foldl (fun acc c => 10 * acc + digit_value c) 0

/-- Leading white space is discarded by `strtol`. -/
def skip_space : List Char → List Char
  | [] => []
  | c :: cs => if isspace c then skip_space cs else c :: cs

/-- The conversion `std::stoi(s)` (base 10, no position argument): leading white space, an
optional sign, then the longest run of digits; what follows the digits is ignored.
No digit: `std::invalid_argument`. Value outside `int`: `std::out_of_range`. -/
def stoi (s : List Char) : Except Failure Int :=
  let body : Bool × List Char :=
    match skip_space s with
    | '-' :: r => (true, r)
    | '+' :: r => (false, r)
    | r => (false, r)
  let ds := body.2.takeWhile isdigit
  if ds = [] then .error .invalid_argument
  else
    let v : Int := if body.1 then -(digits_value ds : Int) else (digits_value ds : Int)
    if v < INT_MIN ∨ INT_MAX < v then .error .out_of_range else .ok v

/-- Whether `s.find(pat) != std::string::npos`. -/
def contains_sub (pat : List Char) : List Char → Bool
  | [] => pat.isEmpty
  | c :: cs => pat.isPrefixOf (c :: cs) || contains_sub pat cs

/-- The test `str_cores.find("all") != std::string::npos`. -/
def find_all (s : List Char) : Bool := contains_sub ['a', 'l', 'l'] s

/-- Index of the first occurrence, `s.find(c)`; `none` is `std::string::npos`. -/
def find_char (c : Char) : List Char → Option Nat
  | [] => none
  | x :: xs => if x = c then some 0 else (find_char c xs).map (· + 1)

/-- One call `getline(stream, s, ',')`: `none` when the stream is exhausted (the call
fails and the loop ends), otherwise the characters up to the next comma and the rest of
the stream after that comma. -/
def getline (stream : List Char) : Option (List Char × List Char) :=
  match stream with
  | [] => none
  | _ :: _ => some (stream.takeWhile (· ≠ ','), (stream.dropWhile (· ≠ ',')).drop 1)

/-! ## `std::set<ecl_uint>` -/

/-- Conversion of an `int` to `ecl_uint` (32 bits, modular). -/
def to_uint (v : Int) : Nat := (v % 4294967296).toNat

/-- The call `cores.insert(x)` on the ascending sequence of the elements of the set. -/
def set_insert (x : Nat) : List Nat → List Nat
  | [] => [x]
  | y :: ys =>
    if x < y then x :: y :: ys
    else if x = y then y :: ys
    else y :: set_insert x ys

/-- The loop `for (int core = start_core; core <= end_core; ++core) cores.insert(core);`
started at `core`. -/
def range_loop : Nat → Int → Int → List Nat → Except Failure (List Nat)
  | 0, core, end_core, cores =>
    if core ≤ end_core then .error .fuel else .ok cores
  | fuel + 1, core, end_core, cores =>
    if core ≤ end_core then
      if core = INT_MAX then .error .int_overflow
      else range_loop fuel (core + 1) end_core (set_insert (to_uint core) cores)
    else .ok cores

/-- The body of the `while (getline(stream, s, ','))` loop for one token `s`. -/
def parse_token (s : List Char) (cores : List Nat) : Except Failure (List Nat) :=
  match find_char '-' s with
  | none =>
    match stoi s with
    | .error e => .error e
    | .ok v => .ok (set_insert (to_uint v) cores)
  | some dash_pos =>
    match stoi (s.take dash_pos) with
    | .error e => .error e
    | .ok start_core =>
      match stoi (s.drop (dash_pos + 1)) with
      | .error e => .error e
      | .ok end_core =>
        range_loop (end_core + 1 - start_core).toNat start_core end_core cores

/-- The loop `while (getline(stream, s, ',')) { ... }` of `parse_cores`. -/
def parse_loop : Nat → List Char → List Nat → Except Failure (List Nat)
  | 0, _, _ => .error .fuel
  | fuel + 1, stream, cores =>
    match getline stream with
    | none => .ok cores
    | some (s, rest) =>
      match parse_token s cores with
      | .error e => .error e
      | .ok cores1 => parse_loop fuel rest cores1

/-- The function `parse_cores`. The global `USE_ALL_CORES` is passed in and its new value
is returned with the set. -/
def parse_cores (USE_ALL_CORES : Bool) (str_cores : List Char) :
    Except Failure (Bool × List Nat) :=
  if find_all str_cores then .ok (true, [])
  else
    match parse_loop (str_cores.length + 1) str_cores [] with
    | .error e => .error e
    | .ok cores => .ok (USE_ALL_CORES, cores)

/-! ## The grammar of core expressions (what the help text and the specification say) -/

/-- A non-empty run of decimal digits. -/
def is_decimal (ds : List Char) : Bool := !ds.isEmpty && ds.all isdigit

/-- A token of a core expression: one number, or a range `lo-hi`, each written in decimal. -/
inductive CoreToken where
  | single (n : List Char)
  | range (lo hi : List Char)
  deriving DecidableEq, Repr

/-- The text of a token. -/
def CoreToken.text : CoreToken → List Char
  | .single n => n
  | .range lo hi => lo ++ '-' :: hi

/-- Both parts of the token are decimal integers. -/
def CoreToken.decimal : CoreToken → Bool
  | .single n => is_decimal n
  | .range lo hi => is_decimal lo && is_decimal hi

/-- The range is not reversed: `lo <= hi`. -/
def CoreToken.ascending : CoreToken → Bool
  | .single _ => true
  | .range lo hi => digits_value lo ≤ digits_value hi

/-- The values fit the loop on `int`: a number is at most `INT_MAX`, both bounds of a range
are below `INT_MAX`. -/
def CoreToken.in_int : CoreToken → Bool
  | .single n => digits_value n ≤ 2147483647
  | .range lo hi => digits_value lo ≤ 2147483647 && digits_value hi < 2147483647

/-- The index `x` is denoted by the token: it is the number, or lies in the inclusive
interval. A reversed range denotes nothing. -/
def CoreToken.covers (x : Nat) : CoreToken → Prop
  | .single n => x = digits_value n
  | .range lo hi => digits_value lo ≤ x ∧ x ≤ digits_value hi

/-- The expression made of the tokens, separated by commas. -/
def expression : List CoreToken → List Char
  | [] => []
  | [t] => t.text
  | t :: u :: ts => t.text ++ ',' :: expression (u :: ts)

/-- The pieces of an expression between commas, as the `getline` loop sees them: an empty
piece after the last comma is not a token. -/
def comma_tokens_aux : List Char → List Char → List (List Char)
  | [], cur => if cur.isEmpty then [] else [cur.reverse]
  | c :: cs, cur =>
    if c = ',' then cur.reverse :: comma_tokens_aux cs [] else comma_tokens_aux cs (c :: cur)

/-- The tokens of an expression. -/
def comma_tokens (s : List Char) : List (List Char) := comma_tokens_aux s []

/-- The text matches the grammar of a token: a decimal integer, or two of them around one
dash. -/
def matches_grammar (t : List Char) : Bool :=
  is_decimal t ||
    (match find_char '-' t with
     | none => false
     | some p => is_decimal (t.take p) && is_decimal (t.drop (p + 1)))

/-- The text starts, after optional white space and an optional sign, with a digit: this is
when `strtol` converts something. -/
def starts_numeric (t : List Char) : Bool :=
  match skip_space t with
  | [] => false
  | [c] => isdigit c
  | c :: d :: _ => isdigit c || ((c = '-' || c = '+') && isdigit d)

/-- A token in which `std::stoi` is called on a text that is not numeric: the whole token
when it has no dash, else the part before the first dash or the part after it. -/
def non_numeric (t : List Char) : Bool :=
  match find_char '-' t with
  | none => !starts_numeric t
  | some p => !starts_numeric (t.take p) || !starts_numeric (t.drop (p + 1))

/-- A range token whose upper end is `INT_MAX`: the text after the first dash converts to
2147483647, the value at which `++core` in the range loop overflows. -/
def ends_at_int_max (t : List Char) : Bool :=
  match find_char '-' t with
  | none => false
  | some p =>
    match stoi (t.drop (p + 1)) with
    | .ok v => decide (v = INT_MAX)
    | .error _ => false

/-- The `getline` loop seen token by token: the body of the loop on each token of the
expression in turn, stopping at the first failure. -/
def fold_tokens : List (List Char) → List Nat → Except Failure (List Nat)
  | [], cores => .ok cores
  | t :: ts, cores =>
    match parse_token t cores with
    | .error e => .error e
    | .ok cores1 => fold_tokens ts cores1

/-! ## `main`: the option `--core` and core resolution -/

/-- How the process ends. -/
inductive Exit where
  /-- the exit status of the process, as its parent sees it, after `exit(code)`,
  `errx(code, ...)`, `error(code, ...)` or `return code` from `main`. -/
  | status (code : Nat)
  /-- an exception left `parse_cores` and nothing catches it (`std::terminate`); for
  `int_overflow` the behaviour is undefined. -/
  | terminate (e : Failure)
  /-- undefined behaviour: an iterator or an index past the end. -/
  | undefined
  deriving DecidableEq, Repr

/-- The variables of `main` that hold the core selection. `ncores` has no initial value in
the source: its first value is whatever the caller of the embedding passes. -/
structure Options where
  USE_ALL_CORES : Bool
  cores : List Nat
  ncores : Nat
  deriving DecidableEq, Repr

/-- The case of the option loop for `--core=<optarg>`:
`cores = parse_cores(optarg); if ((USE_ALL_CORES == 0) && (cores.size() == 0)) error(...);
ncores = cores.size();`. The function `error` of `error.h` calls `exit(EXIT_FAILURE)`. -/
def core_option (o : Options) (optarg : List Char) : Except Exit Options :=
  match parse_cores o.USE_ALL_CORES optarg with
  | .error e => .error (.terminate e)
  | .ok (all, cores) =>
    if all = false ∧ cores.length = 0 then .error (.status 1)
    else .ok { USE_ALL_CORES := all, cores := cores, ncores := cores.length }

/-- The loop `for (int i = 0; i < ncores; ++i) cores.insert(i);` with `n` rounds left. -/
def insert_loop : Nat → Nat → List Nat → List Nat
  | 0, _, cores => cores
  | n + 1, i, cores => insert_loop n (i + 1) (set_insert i cores)

/-- Lines 178-186 of `main`: all cores when `USE_ALL_CORES`, core 0 when the set is
empty. -/
def resolve_cores (ndevs : Nat) (o : Options) : Options :=
  let o1 : Options :=
    if o.USE_ALL_CORES then
      { o with ncores := ndevs, cores := insert_loop ndevs 0 o.cores }
    else o
  if o1.cores.length = 0 then { o1 with ncores := 1, cores := set_insert 0 o1.cores }
  else o1

/-- Line 188: `if (*cores.rbegin() >= ndevs) errx(1, ...)`. -/
def check_cores (ndevs : Nat) (cores : List Nat) : Except Exit Unit :=
  match cores.getLast? with
  | none => .error .undefined
  | some last => if ndevs ≤ last then .error (.status 1) else .ok ()

/-! ## `main`: the steps that are observed -/

/-- An argument given to the kernel. -/
inductive KernelArg where
  | args_res
  | retvals_res (i : Nat)
  | shmem_res
  | shmem_size (low32 : Nat)
  deriving DecidableEq, Repr

/-- A device buffer that `main` creates. -/
inductive Buffer where
  /-- `shmem_res`, on the memory `shmem_buf`. -/
  | shmem
  /-- `args_res`, on the memory `kernel_arguments_aligned`. -/
  | args
  /-- `retvals_res[i]`, on the memory `retvals[i]`. -/
  | retval (i : Nat)
  deriving DecidableEq, Repr

/-- The steps of `main` that the properties are about, in the order in which they
happen. -/
inductive Event where
  /-- `printf` to standard output. -/
  | print (text : List Char)
  /-- `eclGetDeviceIDs(platform_id, ECL_DEVICE_TYPE_CUSTOM, ndevs, &all_devices[0], nullptr)`. -/
  | get_device_ids
  /-- `selected_devices.push_back(all_devices[core])`. -/
  | select (core : Nat) (device : Nat)
  /-- `queue[i] = eclCreateCommandQueueWithProperties(context, selected_devices[i], ...)`. -/
  | create_queue (i : Nat) (device : Nat)
  /-- `eclSetKernelArgELcoreMem(kernel, iarg, ...)` or `eclSetKernelArg` in round `i`. -/
  | set_arg (i : Nat) (iarg : Nat) (arg : KernelArg)
  /-- `eclEnqueueNDRangeKernel(queue[i], kernel, ...)`; `device` is the one of `queue[i]`. -/
  | enqueue (i : Nat) (device : Nat)
  /-- `eclWaitForEvents(ncores, kernel_event)`. -/
  | wait_for_events (n : Nat)
  /-- `eclEnqueueMapBuffer(queue[i], retvals_res[i], ...)`. -/
  | map_buffer (i : Nat)
  /-- `eclReleaseCommandQueue(queue[i])`. -/
  | release_queue (i : Nat)
  /-- `eclReleaseMemObject(shmem_res)`. -/
  | release_shmem
  /-- `eclReleaseMemObject(args_res)`. -/
  | release_args
  /-- `eclReleaseKernel(kernel)`. -/
  | release_kernel
  /-- `eclReleaseProgram(program)`. -/
  | release_program
  /-- `eclReleaseContext(context)`. -/
  | release_context
  /-- `eclReleaseMemObject(retvals_res[i])`. -/
  | release_retval (i : Nat)
  /-- `eclCreateBuffer(context, ECL_MEM_USE_HOST_PTR, size, p, &result)` for a buffer. -/
  | create_buffer (b : Buffer) (size : Nat)
  /-- `eclSetMemObjectDestructorCallback(mem, MemoryDestructor, p)` for a buffer. -/
  | set_destructor (b : Buffer)
  deriving DecidableEq, Repr

/-- The ElcoreCL runtime, seen from `main`: the device handles it enumerates (their number
is `ndevs`) and, for each call, whether it reports a failure (a status other than
`ECL_SUCCESS`, or a null handle where `main` tests for one). -/
structure Runtime where
  all_devices : List Nat
  failed : Event → Bool

/-- The end of the process: how it ended and what had happened until then. -/
structure Halted where
  exit : Exit
  trace : List Event
  deriving DecidableEq, Repr

/-- The conversion `%d` of `printf` for a count or an index: its decimal digits. -/
def fmt_d (v : Nat) : List Char := Nat.toDigits 10 v

/-- The text written to standard output by the steps of a trace. -/
def stdout : List Event → List Char
  | [] => []
  | .print text :: es => text ++ stdout es
  | _ :: es => stdout es

/-- The loop `for (auto it = cores.begin(); it != cores.end(); ++it)
selected_devices.push_back(all_devices[*it]);`. -/
def select_loop (all_devices : List Nat) :
    List Nat → List Nat → List Event → Except Halted (List Nat × List Event)
  | [], selected, tr => .ok (selected, tr)
  | c :: cs, selected, tr =>
    match all_devices[c]? with
    | none => .error ⟨.undefined, tr⟩
    | some d => select_loop all_devices cs (selected ++ [d]) (tr ++ [.select c d])

/-- Lines 178-200 of `main`: resolution of the core set, the range check, the selection of
the devices and the line `ncores=... ndevs=...`. Returns the selection, the selected
devices and the trace. -/
def resolution (rt : Runtime) (o : Options) (tr : List Event) :
    Except Halted (Options × List Nat × List Event) :=
  let ndevs := rt.all_devices.length
  let o1 := resolve_cores ndevs o
  match check_cores ndevs o1.cores with
  | .error e => .error ⟨e, tr⟩
  | .ok _ =>
    let tr1 := tr ++ [.get_device_ids]
    if rt.failed .get_device_ids then .error ⟨.status 1, tr1⟩
    else
      match select_loop rt.all_devices o1.cores [] tr1 with
      | .error h => .error h
      | .ok (selected, tr2) =>
        let tr3 := tr2 ++ [.print ("ncores=".toList ++ fmt_d o1.ncores ++ " ndevs=".toList
          ++ fmt_d ndevs ++ "\n".toList)]
        if ndevs < o1.ncores then .error ⟨.status 1, tr3⟩ else .ok (o1, selected, tr3)

/-! ## `main`: packing of the kernel arguments -/

/-- Number of values of `size_t`. -/
def SIZE_MOD : Nat := 18446744073709551616

/-- The size computed by `AllocateAlign(size)`:
`size = ((size + page_size - 1) / page_size) * page_size` in `size_t` arithmetic. -/
def AllocateAlign (page_size size : Nat) : Nat :=
  ((size + page_size + (SIZE_MOD - 1)) % SIZE_MOD / page_size * page_size) % SIZE_MOD

/-- Lines 156-159: the sum of the sizes of the arguments, then
`kernel_arguments_size += kernel_arguments.size() + 1`. The strings are in memory, so
these sums stay below `SIZE_MOD`. -/
def kernel_arguments_size (kernel_arguments : List (List Nat)) : Nat :=
  kernel_arguments.foldl (fun size a => size + a.length) 0 + (kernel_arguments.length + 1)

/-- The call `memcpy(&buffer[offset], src, src.size())`, byte by byte. -/
def memcpy (buffer : List Nat) (offset : Nat) : List Nat → List Nat
  | [] => buffer
  | b :: bs => memcpy (buffer.set offset b) (offset + 1) bs

/-- The loop of lines 164-169: copy each argument, then store a NUL after it. -/
def pack_loop : List (List Nat) → List Nat → Nat → List Nat × Nat
  | [], buffer, offset => (buffer, offset)
  | a :: rest, buffer, offset =>
    let buffer1 := memcpy buffer offset a
    let offset1 := offset + a.length
    pack_loop rest (buffer1.set offset1 0) (offset1 + 1)

/-- Lines 163-170: the packing loop, then `kernel_arguments_aligned[offset] = 0`. The
argument `buffer` is the memory returned by `AllocateAlign`, with whatever it holds. -/
def pack_arguments (kernel_arguments : List (List Nat)) (buffer : List Nat) : List Nat :=
  let r := pack_loop kernel_arguments buffer 0
  r.1.set r.2 0

/-- The layout the specification gives: each argument followed by one NUL, then one more
NUL. -/
def packed : List (List Nat) → List Nat
  | [] => [0]
  | a :: rest => a ++ 0 :: packed rest

/-! ## `main`: launch -/

/-- One round of the loop of lines 274-309, for `queue[i]` on the device
`selected_devices[i]`, `core` being `*core_num`. -/
def launch_core (rt : Runtime) (shmem_size : Nat) (i core device : Nat) (tr : List Event) :
    Except Halted (List Event) :=
  let tr1 := tr ++ [.print (' ' :: fmt_d core), .create_queue i device]
  if rt.failed (.create_queue i device) then .error ⟨.status 1, tr1⟩
  else
    let tr2 := tr1 ++ [.set_arg i 0 .args_res]
    if rt.failed (.set_arg i 0 .args_res) then .error ⟨.status 1, tr2⟩
    else
      let tr3 := tr2 ++ [.set_arg i 1 (.retvals_res i)]
      if rt.failed (.set_arg i 1 (.retvals_res i)) then .error ⟨.status 1, tr3⟩
      else
        let shared : Except Halted (List Event) :=
          if shmem_size ≠ 0 then
            let tr4 := tr3 ++ [.set_arg i 2 .shmem_res]
            if rt.failed (.set_arg i 2 .shmem_res) then .error ⟨.status 1, tr4⟩
            else
              let tr5 := tr4 ++ [.set_arg i 3 (.shmem_size (shmem_size % 4294967296))]
              if rt.failed (.set_arg i 3 (.shmem_size (shmem_size % 4294967296))) then
                .error ⟨.status 1, tr5⟩
              else .ok tr5
          else .ok tr3
        match shared with
        | .error h => .error h
        | .ok tr6 =>
          let tr7 := tr6 ++ [.enqueue i device]
          if rt.failed (.enqueue i device) then .error ⟨.status 1, tr7⟩ else .ok tr7

/-- The loop `for (int i = 0; i < ncores; ++i, ++core_num)` of lines 274-309 with `n`
rounds left; `core_num` is what is left of the set from the iterator on. -/
def launch_loop (rt : Runtime) (shmem_size : Nat) (selected_devices : List Nat) :
    Nat → Nat → List Nat → List Event → Except Halted (List Event)
  | 0, _, _, tr => .ok tr
  | n + 1, i, core_num, tr =>
    match core_num, selected_devices[i]? with
    | core :: rest, some device =>
      match launch_core rt shmem_size i core device tr with
      | .error h => .error h
      | .ok tr1 => launch_loop rt shmem_size selected_devices n (i + 1) rest tr1
    | _, _ => .error ⟨.undefined, tr⟩

/-- Lines 272-310: `printf("run")`, the launch loop, `printf(" and wait all %d cores\n")`. -/
def launch (rt : Runtime) (shmem_size : Nat) (cores : List Nat) (ncores : Nat)
    (selected_devices : List Nat) (tr : List Event) : Except Halted (List Event) :=
  match launch_loop rt shmem_size selected_devices ncores 0 cores
      (tr ++ [.print "run".toList]) with
  | .error h => .error h
  | .ok tr1 =>
    .ok (tr1 ++ [.print (" and wait all ".toList ++ fmt_d ncores ++ " cores\n".toList)])

/-- The device of each kernel launch of a trace, in the order of the launches. -/
def launches : List Event → List (Nat × Nat)
  | [] => []
  | .enqueue i device :: es => (i, device) :: launches es
  | _ :: es => launches es

/-! ## `main`: join, collection and teardown -/

/-- Lines 311-312: `eclWaitForEvents(ncores, kernel_event)`. -/
def wait_all (rt : Runtime) (ncores : Nat) (tr : List Event) : Except Halted (List Event) :=
  let tr1 := tr ++ [.wait_for_events ncores]
  if rt.failed (.wait_for_events ncores) then .error ⟨.status 1, tr1⟩ else .ok tr1

/-- The loop of lines 315-320 with `n` rounds left: map the retval buffer of core `i` (the
result of the mapping is not tested), release its queue. -/
def collect_loop (rt : Runtime) : Nat → Nat → List Event → Except Halted (List Event)
  | 0, _, tr => .ok tr
  | n + 1, i, tr =>
    let tr1 := tr ++ [.map_buffer i, .release_queue i]
    if rt.failed (.release_queue i) then .error ⟨.status 1, tr1⟩
    else collect_loop rt n (i + 1) tr1

/-- A release call followed by `if (ret != ECL_SUCCESS) errx(1, ...)`. -/
def release (rt : Runtime) (e : Event) (tr : List Event) : Except Halted (List Event) :=
  if rt.failed e then .error ⟨.status 1, tr ++ [e]⟩ else .ok (tr ++ [e])

/-- Lines 322-335: the shared buffer when there is one, the arguments buffer, the kernel,
the program, the context. -/
def teardown (rt : Runtime) (shmem_size : Nat) (tr : List Event) :
    Except Halted (List Event) :=
  match (if shmem_size ≠ 0 then release rt .release_shmem tr else .ok tr) with
  | .error h => .error h
  | .ok tr1 =>
    match release rt .release_args tr1 with
    | .error h => .error h
    | .ok tr2 =>
      match release rt .release_kernel tr2 with
      | .error h => .error h
      | .ok tr3 =>
        match release rt .release_program tr3 with
        | .error h => .error h
        | .ok tr4 => release rt .release_context tr4

/-- The conversion of the `ecl_uint` of a retval buffer (4 bytes) to the `int` that `main`
returns. -/
def uint_to_int (r : Nat) : Int :=
  if r % 4294967296 < 2147483648 then ((r % 4294967296 : Nat) : Int)
  else ((r % 4294967296 : Nat) : Int) - 4294967296

/-- The exit status of a process whose `main` returns `v`: the low 8 bits, `v & 0377`. -/
def process_status (v : Int) : Nat := (v % 256).toNat

/-- The loop of lines 337-342 from index `i` on, `retvals` being the values `*retvals[i]`,
`*retvals[i+1]`, ... (each an `ecl_uint`): `if (*retvals[i] != 0) return *retvals[i];` then
the release of the buffer; `return 0` after the loop. The value returned goes through
`int` and the process keeps its low 8 bits. -/
def retval_loop (rt : Runtime) : Nat → List Nat → List Event → Halted
  | _, [], tr => ⟨.status 0, tr⟩
  | i, r :: rest, tr =>
    if r ≠ 0 then ⟨.status (process_status (uint_to_int r)), tr⟩
    else
      let tr1 := tr ++ [.release_retval i]
      if rt.failed (.release_retval i) then ⟨.status 1, tr1⟩
      else retval_loop rt (i + 1) rest tr1

/-- Lines 314-342 of `main`, after the join. `retvals` holds the value of each of the
`ncores` retval buffers, so `ncores` is its length. -/
def collect_and_teardown (rt : Runtime) (shmem_size : Nat) (retvals : List Nat)
    (tr : List Event) : Halted :=
  match collect_loop rt retvals.length 0 tr with
  | .error h => h
  | .ok tr1 =>
    match teardown rt shmem_size tr1 with
    | .error h => h
    | .ok tr2 => retval_loop rt 0 retvals tr2

/-- A release call of the runtime. -/
def Event.is_release : Event → Bool
  | .release_queue _ => true
  | .release_shmem => true
  | .release_args => true
  | .release_kernel => true
  | .release_program => true
  | .release_context => true
  | .release_retval _ => true
  | _ => false

/-- The release calls of a trace, in order. -/
def releases (tr : List Event) : List Event := tr.filter Event.is_release

/-- The order of the releases that the specification gives for a run of `n` cores. -/
def release_order (n : Nat) (shmem_size : Nat) : List Event :=
  (List.range n).map Event.release_queue
    ++ (if shmem_size ≠ 0 then [Event.release_shmem] else [])
    ++ [Event.release_args, Event.release_kernel, Event.release_program,
        Event.release_context]
    ++ (List.range n).map Event.release_retval

/-- The steps of one round of the launch loop when no call fails. -/
def core_events (shmem_size : Nat) (i core device : Nat) : List Event :=
  [.print (' ' :: fmt_d core), .create_queue i device, .set_arg i 0 .args_res,
    .set_arg i 1 (.retvals_res i)]
  ++ (if shmem_size ≠ 0 then
        [.set_arg i 2 .shmem_res, .set_arg i 3 (.shmem_size (shmem_size % 4294967296))]
      else [])
  ++ [.enqueue i device]

/-- The steps of the rounds `i`, `i + 1`, ... of the launch loop when no call fails, for the
cores and the devices that are left. -/
def loop_events (shmem_size : Nat) : Nat → List Nat → List Nat → List Event
  | i, core :: cores, device :: devices =>
    core_events shmem_size i core device ++ loop_events shmem_size (i + 1) cores devices
  | _, _, _ => []

/-- The indices `i`, `i + 1`, ... paired with the devices. -/
def numbered : Nat → List Nat → List (Nat × Nat)
  | _, [] => []
  | i, d :: ds => (i, d) :: numbered (i + 1) ds

/-- The text ` c_0 c_1 ...`: each core index after a blank. -/
def core_list : List Nat → List Char
  | [] => []
  | c :: cs => ' ' :: fmt_d c ++ core_list cs

/-- Lines 311-342 of `main`: the join, then collection and teardown. -/
def join (rt : Runtime) (shmem_size : Nat) (retvals : List Nat) (tr : List Event) : Halted :=
  match wait_all rt retvals.length tr with
  | .error h => h
  | .ok tr1 => collect_and_teardown rt shmem_size retvals tr1

/-- What becomes of a sequence of release calls when each failure is fatal: the calls that
are executed (up to and including the first one that fails) and whether all succeeded. -/
def run_releases (failed : Event → Bool) : List Event → List Event × Bool
  | [] => ([], true)
  | e :: es =>
    if failed e then ([e], false)
    else (e :: (run_releases failed es).1, (run_releases failed es).2)

/-- The steps of the collection loop from index `i` on, `n` rounds, when no release
fails. -/
def collect_events : Nat → Nat → List Event
  | 0, _ => []
  | n + 1, i => .map_buffer i :: .release_queue i :: collect_events n (i + 1)

/-- The releases of lines 322-335, in order. -/
def teardown_list (shmem_size : Nat) : List Event :=
  (if shmem_size ≠ 0 then [Event.release_shmem] else [])
    ++ [Event.release_args, Event.release_kernel, Event.release_program,
        Event.release_context]

/-- The indices of the retval buffers released in a trace, in order. -/
def retval_releases : List Event → List Nat
  | [] => []
  | .release_retval i :: es => i :: retval_releases es
  | _ :: es => retval_releases es

/-- The trace at the end of a step, whether it went on or ended the process. -/
def outcome_trace : Except Halted (List Event) → List Event
  | .ok tr => tr
  | .error h => h.trace

/-! ## `main`: the option loop -/

/-- An option as `getopt_long` hands it to the loop of `main`, with its argument. -/
inductive Opt where
  /-- `-h`. -/
  | help
  /-- `-e <file>`. -/
  | elf (optarg : List Char)
  /-- `-f <name>`. -/
  | func (optarg : List Char)
  /-- `-p <index>`. -/
  | platform (optarg : List Char)
  /-- `-s <count>`. -/
  | shmem (optarg : List Char)
  /-- `--init-sync-file <file-name>`. -/
  | init_sync_file (optarg : List Char)
  /-- `--wait-for-file <file-name>`. -/
  | wait_for_file (optarg : List Char)
  /-- `--core` (the argument is optional: without `=<cores>`, `optarg` is null). -/
  | core (optarg : Option (List Char))
  /-- what `getopt_long` does not recognise: it returns `?`. -/
  | unknown
  deriving DecidableEq, Repr

/-- The default entry symbol. -/
def ELCORE_MAIN_WRAPPER : List Char := "_elcore_main_wrapper".toList

/-- The entry symbol that `-s` sets. -/
def ELCORECL_RUN_WRAPPER : List Char := "_elcorecl_run_wrapper".toList

/-- The variables of `main` that the option loop sets. -/
structure Args where
  core : Options
  func_name : List Char
  elf : Option (List Char)
  relf : Option (List Char)
  platform : Int
  shmem_size : Nat
  init_sync_file : Option (List Char)
  wait_for_file : Option (List Char)
  deriving DecidableEq, Repr

/-- The variables before the option loop. `ncores` and, in `cl-double.cc`, `relf` have no
initial value in the source: the caller of the embedding passes one. -/
def initial_args (ncores : Nat) (relf : Option (List Char)) : Args :=
  { core := ⟨false, [], ncores⟩, func_name := ELCORE_MAIN_WRAPPER, elf := none, relf := relf,
    platform := 0, shmem_size := 0, init_sync_file := none, wait_for_file := none }

/-- The function `atoi`: the leading number of the text, 0 when there is none; `none`
when the number does not fit an `int` (the behaviour is then undefined). -/
def atoi (s : List Char) : Option Int :=
  match stoi s with
  | .ok v => some v
  | .error .invalid_argument => some 0
  | .error _ => none

/-- Conversion of an `int` to `size_t`. -/
def to_size (v : Int) : Nat := (v % 18446744073709551616).toNat

/-- The case `0` / `option_index == 2` of both variants: `--core`. A null `optarg` is
given to the constructor of `std::string`, which is undefined. -/
def core_case (a : Args) (optarg : Option (List Char)) : Except Exit Args :=
  match optarg with
  | none => .error .undefined
  | some text =>
    match core_option a.core text with
    | .error e => .error e
    | .ok o => .ok { a with core := o }

/-- The case `'s'` of both variants:
`shmem_size = atoi(optarg); func_name = "_elcorecl_run_wrapper";`. -/
def shmem_case (a : Args) (optarg : List Char) : Except Exit Args :=
  match atoi optarg with
  | none => .error .undefined
  | some v => .ok { a with shmem_size := to_size v, func_name := ELCORECL_RUN_WRAPPER }

/-- One round of the option loop of `elcorecl-run.cc` (lines 118-149). The option string
is `he:f:s:`: `-f` is returned by `getopt_long` but the `switch` has no case for it, and
`-p` is not in the option string; both end in `default`, as an unknown option does. -/
def option_run (a : Args) : Opt → Except Exit Args
  | .init_sync_file f => .ok { a with init_sync_file := some f }
  | .wait_for_file f => .ok { a with wait_for_file := some f }
  | .core optarg => core_case a optarg
  | .help => .error (.status 0)
  | .elf f => .ok { a with elf := some f }
  | .shmem optarg => shmem_case a optarg
  | .func _ => .error (.status 1)
  | .platform _ => .error (.status 1)
  | .unknown => .error (.status 1)

/-- One round of the option loop of `cl-double.cc` (lines 110-151), option string
`he:f:p:s:`. -/
def option_double (a : Args) : Opt → Except Exit Args
  | .init_sync_file f => .ok { a with init_sync_file := some f }
  | .wait_for_file f => .ok { a with wait_for_file := some f }
  | .core optarg => core_case a optarg
  | .func name => .ok { a with func_name := name }
  | .help => .error (.status 0)
  | .elf f => if a.elf = none then .ok { a with elf := some f } else .ok { a with relf := some f }
  | .platform optarg =>
    match atoi optarg with
    | none => .error .undefined
    | some v => .ok { a with platform := v }
  | .shmem optarg => shmem_case a optarg
  | .unknown => .error (.status 1)

/-- The loop `while ((opt = getopt_long(...)) != -1) switch (opt) { ... }` over the options
of the command line, `step` being the `switch` of the variant. -/
def option_loop (step : Args → Opt → Except Exit Args) : Args → List Opt → Except Exit Args
  | a, [] => .ok a
  | a, opt :: rest =>
    match step a opt with
    | .error e => .error e
    | .ok a1 => option_loop step a1 rest

/-- The entry symbol that a sequence of options leaves in `func_name`, starting from
`symbol`: each `-f <name>` replaces it by the name, each `-s` by `_elcorecl_run_wrapper`. -/
def entry_symbol (symbol : List Char) : List Opt → List Char
  | [] => symbol
  | .func name :: rest => entry_symbol name rest
  | .shmem _ :: rest => entry_symbol ELCORECL_RUN_WRAPPER rest
  | _ :: rest => entry_symbol symbol rest

/-- The entry symbol as the specification words it: the name of `-f` when there is one (the
last one, when there are several), else `_elcorecl_run_wrapper` when `-s` is given, else
`_elcore_main_wrapper`. -/
def specified_symbol (opts : List Opt) : List Char :=
  match (opts.filterMap (fun o => match o with | .func name => some name | _ => none)).getLast? with
  | some name => name
  | none =>
    if opts.any (fun o => match o with | .shmem _ => true | _ => false) then
      ELCORECL_RUN_WRAPPER
    else ELCORE_MAIN_WRAPPER

/-- The options `--core` of a command line, one after the other: the `--core` case of the
option loop on each argument in turn. -/
def core_options : Options → List (List Char) → Except Exit Options
  | o, [] => .ok o
  | o, optarg :: rest =>
    match core_option o optarg with
    | .error e => .error e
    | .ok o1 => core_options o1 rest


/-- What holds of the core selection at every point of the option loop: the set is in
ascending order, and `ncores` is its size as soon as an option `--core` has filled it. -/
def Options.consistent (o : Options) : Prop :=
  o.cores.Sorted (· < ·) ∧ (o.cores = [] ∨ o.ncores = o.cores.length)

/-! ## `main`: the device buffers -/

/-- What the allocator and the runtime answer when a buffer is created. -/
structure BufferRuntime where
  /-- The value of `getpagesize()`. -/
  page_size : Nat
  /-- Whether `posix_memalign` fails, so that `AllocateAlign` returns a null pointer. -/
  alloc_null : Buffer → Bool
  /-- Whether `eclCreateBuffer` returns a null handle. -/
  null_handle : Buffer → Bool
  /-- Whether `eclCreateBuffer` stores in `result` a code other than `ECL_SUCCESS`. -/
  create_failed : Buffer → Bool
  /-- Whether `eclSetMemObjectDestructorCallback` returns a code other than `ECL_SUCCESS`. -/
  callback_failed : Buffer → Bool

/-- What a call of `CreateBuffer` leaves: whether the handle `mem` is null, whether the
function returned a code other than `ECL_SUCCESS`, and the trace. -/
structure Created where
  mem_null : Bool
  failed : Bool
  trace : List Event
  deriving DecidableEq, Repr

/-- The function `CreateBuffer(context, size, mem, p)` (lines 47-61): `eclCreateBuffer`,
and when it gave a handle and `ECL_SUCCESS`, `eclSetMemObjectDestructorCallback`. -/
def CreateBuffer (m : BufferRuntime) (b : Buffer) (size : Nat) (tr : List Event) : Created :=
  let tr1 := tr ++ [.create_buffer b size]
  if m.null_handle b ∨ m.create_failed b then ⟨m.null_handle b, m.create_failed b, tr1⟩
  else
    let tr2 := tr1 ++ [.set_destructor b]
    if m.callback_failed b then ⟨false, true, tr2⟩ else ⟨false, false, tr2⟩

/-- Lines 161-162: `kernel_arguments_size_aligned` after `AllocateAlign`. -/
def kernel_arguments_size_aligned (m : BufferRuntime) (kernel_arguments : List (List Nat)) :
    Nat :=
  AllocateAlign m.page_size (kernel_arguments_size kernel_arguments)

/-- Lines 234-248 of `main`: the shared buffer when `shmem_size` is not zero, then the
arguments buffer. The value returned by `CreateBuffer` is not used: only the handle is
tested. Returns `shmem_size` (which `AllocateAlign` has replaced) and the trace. A null
`shmem_buf` is handed to `memset`, which is undefined. -/
def create_shared_and_args (m : BufferRuntime) (shmem_size : Nat)
    (kernel_arguments : List (List Nat)) (tr : List Event) :
    Except Halted (Nat × List Event) :=
  let shared : Except Halted (Nat × List Event) :=
    if shmem_size ≠ 0 then
      if m.alloc_null .shmem then .error ⟨.undefined, tr⟩
      else
        let c := CreateBuffer m .shmem (AllocateAlign m.page_size shmem_size) tr
        if c.mem_null then .error ⟨.status 1, c.trace⟩
        else .ok (AllocateAlign m.page_size shmem_size, c.trace)
    else .ok (shmem_size, tr)
  match shared with
  | .error h => .error h
  | .ok (size, tr1) =>
    let c := CreateBuffer m .args (kernel_arguments_size_aligned m kernel_arguments) tr1
    if c.mem_null then .error ⟨.status 1, c.trace⟩ else .ok (size, c.trace)

/-- The loop of lines 265-271 with `n` rounds left, at index `i`:
`retvals[i] = AllocateAlign(retval_size); *retvals[i] = 0; CreateBuffer(...)` and the test
of the pointer and of the handle. The store through a null `retvals[i]` is undefined. -/
def create_retvals_loop (m : BufferRuntime) :
    Nat → Nat → Nat → List Event → Except Halted (Nat × List Event)
  | 0, _, retval_size, tr => .ok (retval_size, tr)
  | n + 1, i, retval_size, tr =>
    if m.alloc_null (.retval i) then .error ⟨.undefined, tr⟩
    else
      let c := CreateBuffer m (.retval i) (AllocateAlign m.page_size retval_size) tr
      if c.mem_null then .error ⟨.status 1, c.trace⟩
      else create_retvals_loop m n (i + 1) (AllocateAlign m.page_size retval_size) c.trace

/-- Lines 264-271: `size_t retval_size = sizeof(ecl_uint);` and the loop over the cores. -/
def create_retvals (m : BufferRuntime) (ncores : Nat) (tr : List Event) :
    Except Halted (Nat × List Event) :=
  create_retvals_loop m ncores 0 4 tr

/-- Lines 234-310 of `main` on a command line without `--init-sync-file` and
`--wait-for-file` (lines 250-258 then do nothing): the buffers, then the launch. -/
def buffers_and_launch (m : BufferRuntime) (rt : Runtime) (shmem_size : Nat)
    (kernel_arguments : List (List Nat)) (cores : List Nat) (ncores : Nat)
    (selected_devices : List Nat) (tr : List Event) : Except Halted (List Event) :=
  match create_shared_and_args m shmem_size kernel_arguments tr with
  | .error h => .error h
  | .ok (shmem_size1, tr1) =>
    match create_retvals m ncores tr1 with
    | .error h => .error h
    | .ok (_, tr2) => launch rt shmem_size1 cores ncores selected_devices tr2

/-! ## The reader of the packed arguments -/

/-- Modelled from the spec: the reader of the packed arguments, which runs on the device
and is not part of the sources. It reads NUL-terminated strings from the current offset
until the first empty string; `cur` holds the bytes of the string being read, the last one
first. -/
def decode_from : List Nat → List Nat → List (List Nat)
  | [], _ => []
  | b :: rest, cur =>
    if b = 0 then
      if cur.isEmpty then [] else cur.reverse :: decode_from rest []
    else decode_from rest (b :: cur)

/-- Modelled from the spec: decoding of the packed content from offset 0. -/
def decode (bytes : List Nat) : List (List Nat) := decode_from bytes []

/-! # Lemmas -/

/-! ## Characters and `std::stoi` -/

theorem isdigit_not_space {c : Char} (h : isdigit c = true) : isspace c = false := by
  simp only [isdigit, isspace, Bool.and_eq_true, Bool.or_eq_false_iff, beq_eq_false_iff_ne,
    decide_eq_true_eq, Bool.and_eq_false_iff, decide_eq_false_iff_not] at *
  omega

theorem isdigit_ne {c d : Char} (h : isdigit c = true) (hd : isdigit d = false) : c ≠ d := by
  intro hcd
  rw [hcd, hd] at h
  exact Bool.noConfusion h

theorem all_takeWhile {p : Char → Bool} {l : List Char} (h : l.all p = true) :
    l.takeWhile p = l := by
  induction l with
  | nil => rfl
  | cons c cs ih =>
    simp only [List.all_cons, Bool.and_eq_true] at h
    simp [List.takeWhile, h.1, ih h.2]

theorem stoi_decimal {ds : List Char} (hd : is_decimal ds = true)
    (hv : digits_value ds ≤ 2147483647) : stoi ds = .ok (digits_value ds : Int) := by
  cases ds with
  | nil => simp [is_decimal] at hd
  | cons c cs =>
    have hall : (c :: cs).all isdigit = true := by
      simpa [is_decimal] using hd
    have hc : isdigit c = true := by
      simp only [List.all_cons, Bool.and_eq_true] at hall
      exact hall.1
    have h1 : skip_space (c :: cs) = c :: cs := by
      simp [skip_space, isdigit_not_space hc]
    have hm : c ≠ '-' := isdigit_ne hc (by decide)
    have hp : c ≠ '+' := isdigit_ne hc (by decide)
    have hbody : (match skip_space (c :: cs) with
        | '-' :: r => (true, r)
        | '+' :: r => (false, r)
        | r => (false, r)) = (false, c :: cs) := by
      rw [h1]
      split
      · rename_i heq; simp at heq; exact absurd heq.1 hm
      · rename_i heq; simp at heq; exact absurd heq.1 hp
      · rfl
    unfold stoi
    simp only [hbody, all_takeWhile hall]
    simp only [INT_MIN, INT_MAX]
    have h0 : (0 : Int) ≤ (digits_value (c :: cs) : Int) := Int.ofNat_nonneg _
    have h2 : (digits_value (c :: cs) : Int) ≤ 2147483647 := by exact_mod_cast hv
    simp
    omega

theorem to_uint_of_nat {n : Nat} (h : n < 4294967296) : to_uint (n : Int) = n := by
  unfold to_uint
  omega

/-! ## The ordered set -/

theorem mem_set_insert {x a : Nat} {l : List Nat} : x ∈ set_insert a l ↔ x = a ∨ x ∈ l := by
  induction l with
  | nil => simp [set_insert]
  | cons y ys ih =>
    unfold set_insert
    split
    · simp
    · split
      · rename_i h; subst h; simp
      · simp only [List.mem_cons, ih]
        tauto

theorem sorted_set_insert {a : Nat} {l : List Nat} (h : l.Sorted (· < ·)) :
    (set_insert a l).Sorted (· < ·) := by
  induction l with
  | nil => simp [set_insert]
  | cons y ys ih =>
    have hy := List.sorted_cons.mp h
    unfold set_insert
    split
    · rename_i hlt
      refine List.sorted_cons.mpr ⟨?_, h⟩
      intro b hb
      rcases List.mem_cons.mp hb with rfl | hb
      · exact hlt
      · exact lt_trans hlt (hy.1 b hb)
    · split
      · exact h
      · rename_i hnlt hne
        refine List.sorted_cons.mpr ⟨?_, ih hy.2⟩
        intro b hb
        rcases mem_set_insert.mp hb with rfl | hb
        · omega
        · exact hy.1 b hb

theorem range_loop_spec (fuel : Nat) : ∀ (core end_core : Int) (cores : List Nat),
    0 ≤ core → end_core < 2147483647 → fuel = (end_core + 1 - core).toNat →
    cores.Sorted (· < ·) →
    ∃ r, range_loop fuel core end_core cores = .ok r ∧ r.Sorted (· < ·) ∧
      ∀ x : Nat, x ∈ r ↔ x ∈ cores ∨ (core ≤ (x : Int) ∧ (x : Int) ≤ end_core) := by
  induction fuel with
  | zero =>
    intro core end_core cores _ _ hf hs
    have hlt : ¬ core ≤ end_core := by omega
    refine ⟨cores, by simp [range_loop, hlt], hs, ?_⟩
    intro x
    constructor
    · exact fun h => Or.inl h
    · rintro (h | ⟨h1, h2⟩)
      · exact h
      · omega
  | succ fuel ih =>
    intro core end_core cores h0 he hf hs
    have hle : core ≤ end_core := by omega
    have hne : core ≠ INT_MAX := by simp only [INT_MAX]; omega
    obtain ⟨r, hr, hsr, hmem⟩ := ih (core + 1) end_core (set_insert (to_uint core) cores)
      (by omega) he (by omega) (sorted_set_insert hs)
    refine ⟨r, by simp [range_loop, hle, hne, hr], hsr, ?_⟩
    intro x
    rw [hmem, mem_set_insert]
    have hu : to_uint core = core.toNat := by
      have := to_uint_of_nat (n := core.toNat) (by omega)
      rwa [Int.toNat_of_nonneg h0] at this
    rw [hu]
    constructor
    · rintro ((h | h) | ⟨h1, h2⟩)
      · right; omega
      · left; exact h
      · right; omega
    · rintro (h | ⟨h1, h2⟩)
      · left; right; exact h
      · by_cases hx : x = core.toNat
        · left; left; exact hx
        · right; omega

/-! ## Tokens and the `getline` loop -/

theorem find_char_none {c : Char} {l : List Char} (h : ∀ x ∈ l, x ≠ c) :
    find_char c l = none := by
  induction l with
  | nil => rfl
  | cons y ys ih =>
    have hy : y ≠ c := h y (List.mem_cons_self _ _)
    simp [find_char, hy, ih (fun x hx => h x (List.mem_cons_of_mem _ hx))]

theorem find_char_append {c : Char} {l r : List Char} (h : ∀ x ∈ l, x ≠ c) :
    find_char c (l ++ c :: r) = some l.length := by
  induction l with
  | nil => simp [find_char]
  | cons y ys ih =>
    have hy : y ≠ c := h y (List.mem_cons_self _ _)
    simp [find_char, hy, ih (fun x hx => h x (List.mem_cons_of_mem _ hx))]

theorem takeWhile_stop {p : Char → Bool} {t : List Char} (c : Char) (rest : List Char)
    (h : ∀ x ∈ t, p x = true) (hc : p c = false) : (t ++ c :: rest).takeWhile p = t := by
  induction t with
  | nil => simp [List.takeWhile, hc]
  | cons y ys ih =>
    simp [List.takeWhile, h y (List.mem_cons_self _ _),
      ih (fun x hx => h x (List.mem_cons_of_mem _ hx))]

theorem dropWhile_stop {p : Char → Bool} {t : List Char} (c : Char) (rest : List Char)
    (h : ∀ x ∈ t, p x = true) (hc : p c = false) :
    (t ++ c :: rest).dropWhile p = c :: rest := by
  induction t with
  | nil => simp [List.dropWhile, hc]
  | cons y ys ih =>
    simp [List.dropWhile, h y (List.mem_cons_self _ _),
      ih (fun x hx => h x (List.mem_cons_of_mem _ hx))]

theorem dropWhile_all {p : Char → Bool} {t : List Char} (h : ∀ x ∈ t, p x = true) :
    t.dropWhile p = [] := by
  induction t with
  | nil => rfl
  | cons y ys ih =>
    simp [List.dropWhile, h y (List.mem_cons_self _ _),
      ih (fun x hx => h x (List.mem_cons_of_mem _ hx))]

theorem getline_comma {t rest : List Char} (h : ∀ x ∈ t, x ≠ ',') :
    getline (t ++ ',' :: rest) = some (t, rest) := by
  have hp : ∀ x ∈ t, (fun x : Char => decide (x ≠ ',')) x = true := by
    intro x hx
    simpa using h x hx
  have h1 := takeWhile_stop ',' rest hp (by simp)
  have h2 := dropWhile_stop ',' rest hp (by simp)
  cases hs : t ++ ',' :: rest with
  | nil => simp at hs
  | cons a as =>
    rw [hs] at h1 h2
    simp only [getline, h1, h2, List.drop_succ_cons, List.drop_zero]

theorem getline_last {t : List Char} (hne : t ≠ []) (h : ∀ x ∈ t, x ≠ ',') :
    getline t = some (t, []) := by
  have hp : ∀ x ∈ t, (fun x : Char => decide (x ≠ ',')) x = true := by
    intro x hx
    simpa using h x hx
  have h1 := all_takeWhile (List.all_eq_true.mpr hp)
  have h2 := dropWhile_all hp
  cases t with
  | nil => exact absurd rfl hne
  | cons a as => simp only [getline, h1, h2, List.drop_nil]

theorem decimal_digits {ds : List Char} (h : is_decimal ds = true) :
    ∀ c ∈ ds, isdigit c = true := by
  simp only [is_decimal, Bool.and_eq_true, List.all_eq_true] at h
  exact h.2

theorem decimal_ne_nil {ds : List Char} (h : is_decimal ds = true) : ds ≠ [] := by
  intro hn
  subst hn
  simp [is_decimal] at h

/-- Every character of a well-formed token is a digit or the dash. -/
theorem text_chars {t : CoreToken} (h : t.decimal = true) :
    ∀ c ∈ t.text, isdigit c = true ∨ c = '-' := by
  cases t with
  | single n => exact fun c hc => Or.inl (decimal_digits h c hc)
  | range lo hi =>
    simp only [CoreToken.decimal, Bool.and_eq_true] at h
    intro c hc
    simp only [CoreToken.text, List.mem_append, List.mem_cons] at hc
    rcases hc with hc | rfl | hc
    · exact Or.inl (decimal_digits h.1 c hc)
    · exact Or.inr rfl
    · exact Or.inl (decimal_digits h.2 c hc)

theorem text_ne_nil {t : CoreToken} (h : t.decimal = true) : t.text ≠ [] := by
  cases t with
  | single n => exact decimal_ne_nil h
  | range lo hi => simp [CoreToken.text]

theorem text_no {t : CoreToken} (h : t.decimal = true) {d : Char} (hd : isdigit d = false)
    (hm : d ≠ '-') : ∀ c ∈ t.text, c ≠ d := by
  intro c hc
  rcases text_chars h c hc with h1 | h1
  · exact isdigit_ne h1 hd
  · rw [h1]; exact fun e => hm e.symm

theorem parse_token_spec {t : CoreToken} (hd : t.decimal = true) (hi : t.in_int = true)
    {cores : List Nat} (hs : cores.Sorted (· < ·)) :
    ∃ r, parse_token t.text cores = .ok r ∧ r.Sorted (· < ·) ∧
      ∀ x : Nat, x ∈ r ↔ x ∈ cores ∨ t.covers x := by
  cases t with
  | single n =>
    simp only [CoreToken.in_int, decide_eq_true_eq] at hi
    have hf : find_char '-' n = none :=
      find_char_none (fun c hc => isdigit_ne (decimal_digits hd c hc) (by decide))
    refine ⟨set_insert (digits_value n) cores, ?_, sorted_set_insert hs, ?_⟩
    · simp only [parse_token, CoreToken.text, hf, stoi_decimal hd hi]
      rw [to_uint_of_nat (by omega)]
    · intro x
      rw [mem_set_insert]
      simp only [CoreToken.covers]
      tauto
  | range lo hi_ =>
    simp only [CoreToken.in_int, Bool.and_eq_true, decide_eq_true_eq] at hi
    simp only [CoreToken.decimal, Bool.and_eq_true] at hd
    have hf : find_char '-' (lo ++ '-' :: hi_) = some lo.length :=
      find_char_append (fun c hc => isdigit_ne (decimal_digits hd.1 c hc) (by decide))
    obtain ⟨r, hr, hsr, hmem⟩ := range_loop_spec
      ((digits_value hi_ : Int) + 1 - (digits_value lo : Int)).toNat (digits_value lo : Int)
      (digits_value hi_ : Int) cores (Int.ofNat_nonneg _) (by omega) rfl hs
    refine ⟨r, ?_, hsr, ?_⟩
    · simp only [parse_token, CoreToken.text, hf, List.take_left, stoi_decimal hd.1 hi.1,
        stoi_decimal hd.2 (le_of_lt hi.2)]
      have hdrop : List.drop (lo.length + 1) (lo ++ '-' :: hi_) = hi_ := by
        rw [List.drop_append_eq_append_drop]
        simp
      simp only [hdrop, stoi_decimal hd.2 (le_of_lt hi.2)]
      exact hr
    · intro x
      rw [hmem]
      simp only [CoreToken.covers]
      constructor
      · rintro (h | ⟨h1, h2⟩)
        · exact Or.inl h
        · right; omega
      · rintro (h | ⟨h1, h2⟩)
        · exact Or.inl h
        · right; omega

/-! ## The whole expression -/

theorem expression_chars {toks : List CoreToken} (h : ∀ t ∈ toks, t.decimal = true) :
    ∀ c ∈ expression toks, isdigit c = true ∨ c = '-' ∨ c = ',' := by
  induction toks with
  | nil => simp [expression]
  | cons t ts ih =>
    have ht := h t (List.mem_cons_self _ _)
    have hts : ∀ u ∈ ts, u.decimal = true := fun u hu => h u (List.mem_cons_of_mem _ hu)
    cases ts with
    | nil =>
      intro c hc
      rcases text_chars ht c hc with h1 | h1
      · exact Or.inl h1
      · exact Or.inr (Or.inl h1)
    | cons u us =>
      intro c hc
      simp only [expression, List.mem_append, List.mem_cons] at hc
      rcases hc with hc | rfl | hc
      · rcases text_chars ht c hc with h1 | h1
        · exact Or.inl h1
        · exact Or.inr (Or.inl h1)
      · exact Or.inr (Or.inr rfl)
      · exact ih hts c hc

theorem contains_sub_all {s : List Char} (h : ∀ c ∈ s, c ≠ 'a') : find_all s = false := by
  unfold find_all
  induction s with
  | nil => rfl
  | cons c cs ih =>
    have hc : c ≠ 'a' := h c (List.mem_cons_self _ _)
    have hc2 : ('a' == c) = false := by
      simp only [beq_eq_false_iff_ne, ne_eq]
      exact fun e => hc e.symm
    simp [contains_sub, List.isPrefixOf, hc2, ih (fun x hx => h x (List.mem_cons_of_mem _ hx))]

theorem find_all_expression {toks : List CoreToken} (h : ∀ t ∈ toks, t.decimal = true) :
    find_all (expression toks) = false := by
  apply contains_sub_all
  intro c hc
  rcases expression_chars h c hc with h1 | h1 | h1
  · exact isdigit_ne h1 (by decide)
  · rw [h1]; decide
  · rw [h1]; decide

theorem parse_loop_spec (toks : List CoreToken) : ∀ (fuel : Nat) (cores : List Nat),
    (∀ t ∈ toks, t.decimal = true ∧ t.in_int = true) → cores.Sorted (· < ·) →
    (expression toks).length < fuel →
    ∃ r, parse_loop fuel (expression toks) cores = .ok r ∧ r.Sorted (· < ·) ∧
      ∀ x : Nat, x ∈ r ↔ x ∈ cores ∨ ∃ t ∈ toks, t.covers x := by
  induction toks with
  | nil =>
    intro fuel cores _ hs hf
    cases fuel with
    | zero => exact absurd hf (Nat.not_lt_zero _)
    | succ fuel =>
      exact ⟨cores, by simp [parse_loop, expression, getline], hs, by simp⟩
  | cons t ts ih =>
    intro fuel cores h hs hf
    have ht := h t (List.mem_cons_self _ _)
    have hts : ∀ u ∈ ts, u.decimal = true ∧ u.in_int = true :=
      fun u hu => h u (List.mem_cons_of_mem _ hu)
    have hcomma : ∀ c ∈ t.text, c ≠ ',' := text_no ht.1 (by decide) (by decide)
    obtain ⟨r1, hr1, hs1, hm1⟩ := parse_token_spec ht.1 ht.2 hs
    cases fuel with
    | zero => exact absurd hf (Nat.not_lt_zero _)
    | succ fuel =>
      cases ts with
      | nil =>
        cases fuel with
        | zero =>
          have := List.length_pos.mpr (text_ne_nil ht.1)
          simp only [expression] at hf
          omega
        | succ fuel =>
          refine ⟨r1, ?_, hs1, ?_⟩
          · have hnil : getline [] = none := rfl
            simp only [parse_loop, expression, getline_last (text_ne_nil ht.1) hcomma, hr1,
              hnil]
          · intro x
            rw [hm1]
            simp
      | cons u us =>
        simp only [expression, List.length_append, List.length_cons] at hf
        obtain ⟨r, hr, hsr, hm⟩ := ih fuel r1 hts hs1 (by omega)
        refine ⟨r, ?_, hsr, ?_⟩
        · simp only [parse_loop, expression, getline_comma hcomma, hr1]
          exact hr
        · intro x
          rw [hm, hm1]
          simp only [List.mem_cons, exists_eq_or_imp]
          tauto

theorem parse_cores_spec (b : Bool) (toks : List CoreToken)
    (h : ∀ t ∈ toks, t.decimal = true ∧ t.in_int = true) :
    ∃ cores, parse_cores b (expression toks) = .ok (b, cores) ∧ cores.Sorted (· < ·) ∧
      ∀ x : Nat, x ∈ cores ↔ ∃ t ∈ toks, t.covers x := by
  obtain ⟨r, hr, hs, hm⟩ := parse_loop_spec toks ((expression toks).length + 1) []
    h List.sorted_nil (Nat.lt_succ_self _)
  refine ⟨r, ?_, hs, ?_⟩
  · simp [parse_cores, find_all_expression (fun t ht => (h t ht).1), hr]
  · intro x
    rw [hm]
    simp

/-! ## Tokens that `std::stoi` rejects -/

theorem stoi_not_numeric {t : List Char} (h : starts_numeric t = false) :
    stoi t = .error .invalid_argument := by
  unfold starts_numeric at h
  unfold stoi
  generalize skip_space t = u at h
  match u, h with
  | [], _ => simp
  | [c], h =>
    simp only at h
    by_cases hm : c = '-'
    · subst hm; simp
    · by_cases hp : c = '+'
      · subst hp; simp
      · split
        · rename_i heq; simp at heq; exact absurd heq.1 hm
        · rename_i heq; simp at heq; exact absurd heq.1 hp
        · simp [List.takeWhile, h]
  | c :: d :: r, h =>
    simp only [Bool.or_eq_false_iff, Bool.and_eq_false_iff] at h
    by_cases hm : c = '-'
    · subst hm
      have hd : isdigit d = false := by
        rcases h.2 with h2 | h2
        · simp at h2
        · exact h2
      simp [List.takeWhile, hd]
    · by_cases hp : c = '+'
      · subst hp
        have hd : isdigit d = false := by
          rcases h.2 with h2 | h2
          · simp at h2
          · exact h2
        simp [List.takeWhile, hd]
      · split
        · rename_i heq; simp at heq; exact absurd heq.1 hm
        · rename_i heq; simp at heq; exact absurd heq.1 hp
        · simp [List.takeWhile, h.1]

theorem parse_token_non_numeric {t : List Char} (h : non_numeric t = true)
    (cores : List Nat) : ∃ e, parse_token t cores = .error e := by
  unfold non_numeric at h
  cases hf : find_char '-' t with
  | none =>
    rw [hf] at h
    simp only [Bool.not_eq_true'] at h
    exact ⟨.invalid_argument, by simp only [parse_token, hf, stoi_not_numeric h]⟩
  | some p =>
    rw [hf] at h
    simp only [Bool.or_eq_true, Bool.not_eq_true'] at h
    cases h1 : stoi (List.take p t) with
    | error e => exact ⟨e, by simp only [parse_token, hf, h1]⟩
    | ok v =>
      rcases h with h | h
      · rw [stoi_not_numeric h] at h1
        cases h1
      · exact ⟨.invalid_argument, by simp only [parse_token, hf, h1, stoi_not_numeric h]⟩

theorem comma_tokens_aux_eq (s : List Char) : ∀ cur : List Char,
    comma_tokens_aux s cur =
      match s with
      | [] => if cur.isEmpty then [] else [cur.reverse]
      | _ :: _ => (cur.reverse ++ s.takeWhile (· ≠ ',')) ::
          comma_tokens_aux ((s.dropWhile (· ≠ ',')).drop 1) [] := by
  induction s with
  | nil => intro cur; rfl
  | cons c cs ih =>
    intro cur
    by_cases hc : c = ','
    · subst hc
      simp [comma_tokens_aux, List.takeWhile, List.dropWhile]
    · rw [comma_tokens_aux, if_neg hc, ih (c :: cur)]
      cases cs with
      | nil => simp [List.takeWhile, List.dropWhile, hc, comma_tokens_aux]
      | cons d ds => simp [List.takeWhile, List.dropWhile, hc]

theorem comma_tokens_cons (c : Char) (cs : List Char) :
    comma_tokens (c :: cs) = (c :: cs).takeWhile (· ≠ ',') ::
      comma_tokens (((c :: cs).dropWhile (· ≠ ',')).drop 1) := by
  unfold comma_tokens
  rw [comma_tokens_aux_eq]
  simp

theorem parse_loop_fold (fuel : Nat) : ∀ (s : List Char) (cores : List Nat),
    s.length < fuel → parse_loop fuel s cores = fold_tokens (comma_tokens s) cores := by
  induction fuel with
  | zero => intro s cores h; exact absurd h (Nat.not_lt_zero _)
  | succ fuel ih =>
    intro s cores h
    cases s with
    | nil => rfl
    | cons c cs =>
      have hlen : (((c :: cs).dropWhile (· ≠ ',')).drop 1).length < fuel := by
        have h1 := (List.dropWhile_sublist (fun x : Char => decide (x ≠ ','))
          (l := c :: cs)).length_le
        simp only [List.length_drop, List.length_cons] at *
        omega
      rw [comma_tokens_cons]
      simp only [parse_loop, getline, fold_tokens]
      cases parse_token ((c :: cs).takeWhile (· ≠ ',')) cores with
      | error e => rfl
      | ok cores1 => exact ih _ cores1 hlen

theorem fold_tokens_error {toks : List (List Char)}
    (h : ∃ t ∈ toks, non_numeric t = true) :
    ∀ cores : List Nat, ∃ e, fold_tokens toks cores = .error e := by
  induction toks with
  | nil => obtain ⟨t, ht, _⟩ := h; cases ht
  | cons t ts ih =>
    intro cores
    obtain ⟨u, hu, hn⟩ := h
    cases hp : parse_token t cores with
    | error e => exact ⟨e, by simp only [fold_tokens, hp]⟩
    | ok cores1 =>
      rcases List.mem_cons.mp hu with rfl | hu
      · obtain ⟨e, he⟩ := parse_token_non_numeric hn cores
        rw [he] at hp
        cases hp
      · obtain ⟨e, he⟩ := ih ⟨u, hu, hn⟩ cores1
        exact ⟨e, by simp only [fold_tokens, hp, he]⟩

/-! ## Core resolution -/

theorem set_insert_last {x : Nat} {l : List Nat} (h : ∀ y ∈ l, y < x) :
    set_insert x l = l ++ [x] := by
  induction l with
  | nil => rfl
  | cons y ys ih =>
    have hy : y < x := h y (List.mem_cons_self _ _)
    have h1 : ¬ x < y := by omega
    have h2 : ¬ x = y := by omega
    simp [set_insert, h1, h2, ih (fun z hz => h z (List.mem_cons_of_mem _ hz))]

theorem insert_loop_range (n : Nat) : ∀ i : Nat,
    insert_loop n i (List.range i) = List.range (i + n) := by
  induction n with
  | zero => intro i; rfl
  | succ n ih =>
    intro i
    have h : set_insert i (List.range i) = List.range (i + 1) := by
      rw [set_insert_last (fun y hy => List.mem_range.mp hy), List.range_succ]
    rw [insert_loop, h, ih (i + 1)]
    congr 1
    omega

theorem sorted_insert_loop (n : Nat) : ∀ (i : Nat) (l : List Nat), l.Sorted (· < ·) →
    (insert_loop n i l).Sorted (· < ·) := by
  induction n with
  | zero => intro i l h; exact h
  | succ n ih => intro i l h; exact ih (i + 1) _ (sorted_set_insert h)

theorem resolve_cores_cores (ndevs : Nat) (o : Options) :
    (resolve_cores ndevs o).cores =
      if (if o.USE_ALL_CORES then insert_loop ndevs 0 o.cores else o.cores) = [] then [0]
      else (if o.USE_ALL_CORES then insert_loop ndevs 0 o.cores else o.cores) := by
  obtain ⟨all, cores, nc⟩ := o
  cases all
  · cases cores with
    | nil => simp [resolve_cores, set_insert]
    | cons y ys => simp [resolve_cores]
  · cases h : insert_loop ndevs 0 cores with
    | nil => simp [resolve_cores, set_insert, h]
    | cons y ys => simp [resolve_cores, h]

theorem sorted_resolve_cores (ndevs : Nat) (o : Options) (h : o.cores.Sorted (· < ·)) :
    (resolve_cores ndevs o).cores.Sorted (· < ·) := by
  have hc : (if o.USE_ALL_CORES then insert_loop ndevs 0 o.cores else o.cores).Sorted
      (· < ·) := by
    split
    · exact sorted_insert_loop _ _ _ h
    · exact h
  rw [resolve_cores_cores]
  generalize (if o.USE_ALL_CORES then insert_loop ndevs 0 o.cores else o.cores) = c at hc
  by_cases hn : c = []
  · simp [hn]
  · simpa [hn] using hc

theorem resolve_cores_ne_nil (ndevs : Nat) (o : Options) :
    (resolve_cores ndevs o).cores ≠ [] := by
  rw [resolve_cores_cores]
  generalize (if o.USE_ALL_CORES then insert_loop ndevs 0 o.cores else o.cores) = c
  by_cases hn : c = []
  · simp [hn]
  · simp [hn]

theorem sorted_getLast {l : List Nat} (h : l.Sorted (· < ·)) {m : Nat}
    (hm : l.getLast? = some m) : m ∈ l ∧ ∀ c ∈ l, c ≤ m := by
  induction l with
  | nil => cases hm
  | cons y ys ih =>
    have hy := List.sorted_cons.mp h
    cases ys with
    | nil =>
      simp only [List.getLast?_singleton, Option.some.injEq] at hm
      subst hm
      simp
    | cons z zs =>
      rw [List.getLast?_cons_cons] at hm
      obtain ⟨h1, h2⟩ := ih hy.2 hm
      refine ⟨List.mem_cons_of_mem _ h1, ?_⟩
      intro c hc
      rcases List.mem_cons.mp hc with rfl | hc
      · exact le_of_lt (hy.1 m h1)
      · exact h2 c hc

theorem check_cores_iff {ndevs : Nat} {l : List Nat} (hs : l.Sorted (· < ·)) (hne : l ≠ []) :
    (check_cores ndevs l = .ok () ↔ ∀ c ∈ l, c < ndevs) ∧
    ((∃ c ∈ l, ndevs ≤ c) → check_cores ndevs l = .error (.status 1)) := by
  cases hm : l.getLast? with
  | none => exact absurd (List.getLast?_eq_none_iff.mp hm) hne
  | some m =>
    obtain ⟨h1, h2⟩ := sorted_getLast hs hm
    unfold check_cores
    rw [hm]
    by_cases hlast : ndevs ≤ m
    · simp only [hlast, if_true]
      refine ⟨⟨fun h => ?_, fun h => absurd (h m h1) (by omega)⟩, fun _ => trivial⟩
      cases h
    · simp only [hlast, if_false]
      refine ⟨⟨fun _ c hc => ?_, fun _ => trivial⟩, ?_⟩
      · have := h2 c hc
        omega
      · rintro ⟨c, hc, hge⟩
        have := h2 c hc
        omega

/-! ## Packing -/

theorem set_at_split (P R : List Nat) (r b : Nat) :
    (P ++ r :: R).set P.length b = P ++ b :: R := by
  rw [List.set_append_right _ _ (le_refl _)]
  simp

theorem memcpy_split (src : List Nat) : ∀ P R : List Nat, src.length ≤ R.length →
    memcpy (P ++ R) P.length src = P ++ src ++ R.drop src.length := by
  induction src with
  | nil => intro P R _; simp [memcpy]
  | cons b bs ih =>
    intro P R h
    cases R with
    | nil => simp at h
    | cons r R1 =>
      simp only [List.length_cons, Nat.add_le_add_iff_right] at h
      have h1 := ih (P ++ [b]) R1 h
      simp only [List.length_append, List.length_singleton, List.append_assoc,
        List.singleton_append] at h1
      simp only [memcpy, set_at_split, h1, List.length_cons, List.drop_succ_cons,
        List.append_assoc, List.cons_append]

theorem pack_split (args : List (List Nat)) : ∀ P R : List Nat,
    (packed args).length ≤ R.length →
    (pack_loop args (P ++ R) P.length).1.set (pack_loop args (P ++ R) P.length).2 0
      = P ++ packed args ++ R.drop (packed args).length := by
  induction args with
  | nil =>
    intro P R h
    cases R with
    | nil => simp [packed] at h
    | cons r R1 => simp [pack_loop, packed, set_at_split]
  | cons a rest ih =>
    intro P R h
    simp only [packed, List.length_append, List.length_cons] at h
    have ha : a.length ≤ R.length := by omega
    have hd : (R.drop a.length).length = R.length - a.length := List.length_drop _ _
    cases hR : R.drop a.length with
    | nil => rw [hR] at hd; simp only [List.length_nil] at hd; omega
    | cons r R1 =>
      have hR1 : R1 = R.drop (a.length + 1) := by
        have := congrArg (List.drop 1) hR
        simpa [List.drop_drop] using this.symm
      have hlen : (packed rest).length ≤ R1.length := by
        rw [hR] at hd
        simp only [List.length_cons] at hd
        omega
      have h1 := ih (P ++ a ++ [0]) R1 hlen
      simp only [List.length_append, List.length_singleton] at h1
      have h2 : (P ++ a ++ r :: R1).set (P.length + a.length) 0 = P ++ a ++ [0] ++ R1 := by
        simp
      have h3 : List.drop (packed rest).length R1
          = List.drop (packed (a :: rest)).length R := by
        rw [hR1, List.drop_drop]
        congr 1
        simp only [packed, List.length_append, List.length_cons]
        omega
      simp only [pack_loop, memcpy_split a P R ha, hR, h2]
      rw [h1, h3]
      simp [packed]

theorem foldl_size (args : List (List Nat)) : ∀ init : Nat,
    args.foldl (fun size a => size + a.length) init = init + (args.map List.length).sum := by
  induction args with
  | nil => intro init; simp
  | cons a rest ih => intro init; simp [ih, Nat.add_assoc]

theorem length_packed (args : List (List Nat)) :
    (packed args).length = (args.map List.length).sum + args.length + 1 := by
  induction args with
  | nil => rfl
  | cons a rest ih => simp [packed, ih]; omega

/-! ## Launch -/

theorem launch_core_ok (rt : Runtime) (hok : ∀ e, rt.failed e = false)
    (shmem_size i core device : Nat) (tr : List Event) :
    launch_core rt shmem_size i core device tr
      = .ok (tr ++ core_events shmem_size i core device) := by
  by_cases hs : shmem_size = 0
  · simp [launch_core, core_events, hok, hs]
  · simp [launch_core, core_events, hok, hs]

theorem launch_loop_ok (rt : Runtime) (hok : ∀ e, rt.failed e = false) (shmem_size : Nat)
    (cores : List Nat) : ∀ (pre devices : List Nat) (tr : List Event),
    devices.length = cores.length →
    launch_loop rt shmem_size (pre ++ devices) cores.length pre.length cores tr
      = .ok (tr ++ loop_events shmem_size pre.length cores devices) := by
  induction cores with
  | nil => intro pre devices tr _; cases devices <;> simp [launch_loop, loop_events]
  | cons c cs ih =>
    intro pre devices tr hl
    cases devices with
    | nil => simp at hl
    | cons d ds =>
      simp only [List.length_cons, Nat.add_right_cancel_iff] at hl
      have hget : (pre ++ d :: ds)[pre.length]? = some d := by
        rw [List.getElem?_append_right (le_refl _)]
        simp
      have h1 := ih (pre ++ [d]) ds (tr ++ core_events shmem_size pre.length c d) hl
      simp only [List.length_append, List.length_singleton, List.append_assoc,
        List.singleton_append] at h1
      simp only [List.length_cons, launch_loop, hget, launch_core_ok rt hok, h1, loop_events,
        List.append_assoc]

theorem launches_append (a b : List Event) : launches (a ++ b) = launches a ++ launches b := by
  induction a with
  | nil => rfl
  | cons e es ih => cases e <;> simp [launches, ih]

theorem stdout_append (a b : List Event) : stdout (a ++ b) = stdout a ++ stdout b := by
  induction a with
  | nil => rfl
  | cons e es ih => cases e <;> simp [stdout, ih]

theorem launches_core_events (shmem_size i core device : Nat) :
    launches (core_events shmem_size i core device) = [(i, device)] := by
  by_cases hs : shmem_size = 0 <;> simp [core_events, launches, hs]

theorem stdout_core_events (shmem_size i core device : Nat) :
    stdout (core_events shmem_size i core device) = ' ' :: fmt_d core := by
  by_cases hs : shmem_size = 0 <;> simp [core_events, stdout, hs]

theorem launches_loop_events (shmem_size : Nat) (cores : List Nat) :
    ∀ (i : Nat) (devices : List Nat), devices.length = cores.length →
    launches (loop_events shmem_size i cores devices) = numbered i devices := by
  induction cores with
  | nil => intro i devices h; cases devices <;> simp_all [loop_events, launches, numbered]
  | cons c cs ih =>
    intro i devices h
    cases devices with
    | nil => simp at h
    | cons d ds =>
      simp only [List.length_cons, Nat.add_right_cancel_iff] at h
      simp [loop_events, launches_append, launches_core_events, numbered, ih (i + 1) ds h]

theorem stdout_loop_events (shmem_size : Nat) (cores : List Nat) :
    ∀ (i : Nat) (devices : List Nat), devices.length = cores.length →
    stdout (loop_events shmem_size i cores devices) = core_list cores := by
  induction cores with
  | nil => intro i devices h; cases devices <;> simp_all [loop_events, stdout, core_list]
  | cons c cs ih =>
    intro i devices h
    cases devices with
    | nil => simp at h
    | cons d ds =>
      simp only [List.length_cons, Nat.add_right_cancel_iff] at h
      simp [loop_events, stdout_append, stdout_core_events, core_list, ih (i + 1) ds h]

theorem select_loop_ok (all_devices : List Nat) (cores : List Nat) :
    ∀ (selected : List Nat) (tr : List Event), (∀ c ∈ cores, c < all_devices.length) →
    ∃ picked tr1, select_loop all_devices cores selected tr = .ok (selected ++ picked, tr1) ∧
      picked.map some = cores.map (fun c => all_devices[c]?) := by
  induction cores with
  | nil => intro selected tr _; exact ⟨[], tr, by simp [select_loop], rfl⟩
  | cons c cs ih =>
    intro selected tr h
    have hc : c < all_devices.length := h c (List.mem_cons_self _ _)
    obtain ⟨picked, tr1, h1, h2⟩ := ih (selected ++ [all_devices[c]])
      (tr ++ [.select c all_devices[c]]) (fun x hx => h x (List.mem_cons_of_mem _ hx))
    refine ⟨all_devices[c] :: picked, tr1, ?_, ?_⟩
    · simp only [select_loop, List.getElem?_eq_getElem hc, h1, List.append_assoc,
        List.singleton_append]
    · simp [h2, List.getElem?_eq_getElem hc]

theorem launch_ok (rt : Runtime) (hok : ∀ e, rt.failed e = false) (shmem_size : Nat)
    (cores selected : List Nat) (hl : selected.length = cores.length) (tr : List Event) :
    ∃ new, launch rt shmem_size cores cores.length selected tr = .ok (tr ++ new) ∧
      launches new = numbered 0 selected ∧
      stdout new = "run".toList ++ core_list cores ++ " and wait all ".toList
        ++ fmt_d cores.length ++ " cores\n".toList := by
  have h := launch_loop_ok rt hok shmem_size cores [] selected (tr ++ [.print "run".toList]) hl
  simp only [List.nil_append, List.length_nil] at h
  refine ⟨[.print "run".toList] ++ loop_events shmem_size 0 cores selected
    ++ [.print (" and wait all ".toList ++ fmt_d cores.length ++ " cores\n".toList)], ?_, ?_, ?_⟩
  · simp only [launch, h, List.append_assoc]
  · simp [launches_append, launches, launches_loop_events shmem_size cores 0 selected hl]
  · simp [stdout_append, stdout, stdout_loop_events shmem_size cores 0 selected hl]

/-! ## Collection and teardown -/

theorem run_releases_append (f : Event → Bool) (a b : List Event) :
    run_releases f (a ++ b) =
      if (run_releases f a).2 then
        ((run_releases f a).1 ++ (run_releases f b).1, (run_releases f b).2)
      else run_releases f a := by
  induction a with
  | nil => simp [run_releases]
  | cons e es ih =>
    by_cases he : f e = true
    · simp [run_releases, he]
    · by_cases h2 : (run_releases f es).2 = true
      · rw [if_pos h2] at ih
        simp [run_releases, he, ih, h2]
      · rw [if_neg h2] at ih
        simp [run_releases, he, ih, h2]

theorem run_releases_ok (f : Event → Bool) (l : List Event) (h : ∀ e ∈ l, f e = false) :
    run_releases f l = (l, true) := by
  induction l with
  | nil => rfl
  | cons e es ih =>
    have he : f e = false := h e (List.mem_cons_self _ _)
    simp [run_releases, he, ih (fun x hx => h x (List.mem_cons_of_mem _ hx))]

theorem run_releases_fail (f : Event → Bool) (l : List Event) :
    ∀ (k : Nat) (e : Event), l[k]? = some e → f e = true →
    (run_releases f l).2 = false ∧ ∃ j, j ≤ k ∧ (run_releases f l).1 = l.take (j + 1) := by
  induction l with
  | nil => intro k e h; simp at h
  | cons x xs ih =>
    intro k e h he
    by_cases hx : f x = true
    · exact ⟨by simp [run_releases, hx], 0, Nat.zero_le _, by simp [run_releases, hx]⟩
    · cases k with
      | zero =>
        simp only [List.getElem?_cons_zero, Option.some.injEq] at h
        rw [h] at hx
        exact absurd he hx
      | succ k =>
        simp only [List.getElem?_cons_succ] at h
        obtain ⟨h1, j, hj, h2⟩ := ih k e h he
        refine ⟨by simp [run_releases, hx, h1], j + 1, by omega, ?_⟩
        simp [run_releases, hx, h2]

theorem releases_append (a b : List Event) : releases (a ++ b) = releases a ++ releases b := by
  simp [releases]

theorem collect_loop_releases (rt : Runtime) (n : Nat) : ∀ (i : Nat) (tr : List Event),
    (∀ tr1, collect_loop rt n i tr = .ok tr1 →
      (run_releases rt.failed ((List.range' i n).map Event.release_queue)).2 = true ∧
      releases tr1 = releases tr ++ (List.range' i n).map Event.release_queue) ∧
    (∀ h, collect_loop rt n i tr = .error h →
      (run_releases rt.failed ((List.range' i n).map Event.release_queue)).2 = false ∧
      h.exit = .status 1 ∧
      releases h.trace = releases tr
        ++ (run_releases rt.failed ((List.range' i n).map Event.release_queue)).1) := by
  induction n with
  | zero =>
    intro i tr
    constructor
    · intro tr1 h
      simp only [collect_loop, Except.ok.injEq] at h
      subst h
      simp [run_releases]
    · intro h hh
      simp [collect_loop] at hh
  | succ n ih =>
    intro i tr
    have hrel : releases (tr ++ [.map_buffer i, .release_queue i])
        = releases tr ++ [.release_queue i] := by
      simp [releases, Event.is_release]
    by_cases hf : rt.failed (.release_queue i) = true
    · constructor
      · intro tr1 h
        simp [collect_loop, hf] at h
      · intro h hh
        simp only [collect_loop, hf, if_true, Except.error.injEq] at hh
        subst hh
        simp [List.range'_succ, run_releases, hf, hrel]
    · obtain ⟨h1, h2⟩ := ih (i + 1) (tr ++ [.map_buffer i, .release_queue i])
      constructor
      · intro tr1 h
        simp only [collect_loop, hf] at h
        obtain ⟨h3, h4⟩ := h1 tr1 h
        simp [List.range'_succ, run_releases, hf, h3, h4, hrel]
      · intro h hh
        simp only [collect_loop, hf] at hh
        obtain ⟨h3, h4, h5⟩ := h2 h hh
        simp [List.range'_succ, run_releases, hf, h3, h4, h5, hrel]

theorem teardown_releases (rt : Runtime) (shmem_size : Nat) (tr : List Event) :
    (∀ tr1, teardown rt shmem_size tr = .ok tr1 →
      (run_releases rt.failed (teardown_list shmem_size)).2 = true ∧
      releases tr1 = releases tr ++ teardown_list shmem_size) ∧
    (∀ h, teardown rt shmem_size tr = .error h →
      (run_releases rt.failed (teardown_list shmem_size)).2 = false ∧
      h.exit = .status 1 ∧
      releases h.trace = releases tr
        ++ (run_releases rt.failed (teardown_list shmem_size)).1) := by
  by_cases hs : shmem_size = 0
  · cases h2 : rt.failed .release_args <;> cases h3 : rt.failed .release_kernel <;>
      cases h4 : rt.failed .release_program <;> cases h5 : rt.failed .release_context <;>
      simp [teardown, teardown_list, release, run_releases, releases, Event.is_release, hs,
        h2, h3, h4, h5]
  · cases h1 : rt.failed .release_shmem <;>
      cases h2 : rt.failed .release_args <;> cases h3 : rt.failed .release_kernel <;>
      cases h4 : rt.failed .release_program <;> cases h5 : rt.failed .release_context <;>
      simp [teardown, teardown_list, release, run_releases, releases, Event.is_release, hs,
        h1, h2, h3, h4, h5]

theorem retval_loop_zero (rt : Runtime) (rs : List Nat) : ∀ (i : Nat) (tr : List Event),
    (∀ r ∈ rs, r = 0) →
    releases (retval_loop rt i rs tr).trace = releases tr
      ++ (run_releases rt.failed ((List.range' i rs.length).map Event.release_retval)).1 ∧
    (retval_loop rt i rs tr).exit = .status
      (if (run_releases rt.failed ((List.range' i rs.length).map Event.release_retval)).2
        then 0 else 1) := by
  induction rs with
  | nil => intro i tr _; simp [retval_loop, run_releases]
  | cons r rest ih =>
    intro i tr hz
    have hr : r = 0 := hz r (List.mem_cons_self _ _)
    subst hr
    have hrel : releases (tr ++ [.release_retval i]) = releases tr ++ [.release_retval i] := by
      simp [releases, Event.is_release]
    by_cases hf : rt.failed (.release_retval i) = true
    · simp [retval_loop, List.range'_succ, run_releases, hf, hrel]
    · obtain ⟨h1, h2⟩ := ih (i + 1) (tr ++ [.release_retval i])
        (fun x hx => hz x (List.mem_cons_of_mem _ hx))
      simp [retval_loop, List.range'_succ, run_releases, hf, hrel, h1, h2]

theorem run_releases_all (f : Event → Bool) (l : List Event)
    (h : (run_releases f l).2 = true) : (run_releases f l).1 = l := by
  induction l with
  | nil => rfl
  | cons e es ih =>
    by_cases he : f e = true
    · simp [run_releases, he] at h
    · simp only [run_releases, he] at h ⊢
      simp [ih h]

theorem collect_and_teardown_zero (rt : Runtime) (shmem_size : Nat) (rs : List Nat)
    (tr : List Event) (hz : ∀ r ∈ rs, r = 0) :
    releases (collect_and_teardown rt shmem_size rs tr).trace = releases tr
      ++ (run_releases rt.failed (release_order rs.length shmem_size)).1 ∧
    (collect_and_teardown rt shmem_size rs tr).exit = .status
      (if (run_releases rt.failed (release_order rs.length shmem_size)).2 then 0 else 1) := by
  have hord : release_order rs.length shmem_size
      = (List.range' 0 rs.length).map Event.release_queue
        ++ (teardown_list shmem_size
          ++ (List.range' 0 rs.length).map Event.release_retval) := by
    simp [release_order, teardown_list, List.range_eq_range']
  rw [hord, run_releases_append]
  obtain ⟨hc1, hc2⟩ := collect_loop_releases rt rs.length 0 tr
  unfold collect_and_teardown
  cases hc : collect_loop rt rs.length 0 tr with
  | error h =>
    obtain ⟨h1, h2, h3⟩ := hc2 h hc
    simp [h1, h2, h3]
  | ok tr1 =>
    obtain ⟨h1, h2⟩ := hc1 tr1 hc
    obtain ⟨ht1, ht2⟩ := teardown_releases rt shmem_size tr1
    rw [run_releases_append]
    have hq := run_releases_all _ _ h1
    cases ht : teardown rt shmem_size tr1 with
    | error h =>
      obtain ⟨h3, h4, h5⟩ := ht2 h ht
      simp [ht, h1, h3, h4, h5, h2, hq]
    | ok tr2 =>
      obtain ⟨h3, h4⟩ := ht1 tr2 ht
      obtain ⟨h5, h6⟩ := retval_loop_zero rt rs 0 tr2 hz
      have ht3 := run_releases_all _ _ h3
      simp [ht, h1, h3, h4, h5, h6, h2, hq, ht3]

/-! ## Runs without a failing release -/

theorem collect_loop_ok (rt : Runtime) (hok : ∀ e, e.is_release = true → rt.failed e = false)
    (n : Nat) : ∀ (i : Nat) (tr : List Event),
    collect_loop rt n i tr = .ok (tr ++ collect_events n i) := by
  induction n with
  | zero => intro i tr; simp [collect_loop, collect_events]
  | succ n ih =>
    intro i tr
    have hf : rt.failed (.release_queue i) = false := hok _ rfl
    simp [collect_loop, collect_events, hf, ih]

theorem teardown_ok (rt : Runtime) (hok : ∀ e, e.is_release = true → rt.failed e = false)
    (shmem_size : Nat) (tr : List Event) :
    teardown rt shmem_size tr = .ok (tr ++ teardown_list shmem_size) := by
  have h1 : rt.failed .release_shmem = false := hok _ rfl
  have h2 : rt.failed .release_args = false := hok _ rfl
  have h3 : rt.failed .release_kernel = false := hok _ rfl
  have h4 : rt.failed .release_program = false := hok _ rfl
  have h5 : rt.failed .release_context = false := hok _ rfl
  by_cases hs : shmem_size = 0 <;>
    simp [teardown, teardown_list, release, hs, h1, h2, h3, h4, h5]

theorem process_status_uint (r : Nat) : process_status (uint_to_int r) = r % 256 := by
  unfold process_status uint_to_int
  split <;> omega

theorem retval_loop_ok (rt : Runtime) (hok : ∀ e, e.is_release = true → rt.failed e = false)
    (rs : List Nat) : ∀ (i : Nat) (tr : List Event),
    (∀ k r, rs[k]? = some r → r ≠ 0 → (∀ j, j < k → rs[j]? = some 0) →
      retval_loop rt i rs tr
        = ⟨.status (process_status (uint_to_int r)),
            tr ++ (List.range' i k).map Event.release_retval⟩) ∧
    ((∀ r ∈ rs, r = 0) →
      retval_loop rt i rs tr
        = ⟨.status 0, tr ++ (List.range' i rs.length).map Event.release_retval⟩) := by
  induction rs with
  | nil =>
    intro i tr
    exact ⟨fun k r h => by simp at h, fun _ => by simp [retval_loop]⟩
  | cons x rest ih =>
    intro i tr
    have hf : rt.failed (.release_retval i) = false := hok _ rfl
    obtain ⟨ih1, ih2⟩ := ih (i + 1) (tr ++ [.release_retval i])
    constructor
    · intro k r hk hr hz
      cases k with
      | zero =>
        simp only [List.getElem?_cons_zero, Option.some.injEq] at hk
        subst hk
        simp [retval_loop, hr]
      | succ k =>
        have hx : x = 0 := by
          have := hz 0 (Nat.succ_pos _)
          simpa using this
        subst hx
        simp only [List.getElem?_cons_succ] at hk
        have hz1 : ∀ j, j < k → rest[j]? = some 0 := by
          intro j hj
          have := hz (j + 1) (by omega)
          simpa using this
        simp [retval_loop, hf, ih1 k r hk hr hz1, List.range'_succ]
    · intro hz
      have hx : x = 0 := hz x (List.mem_cons_self _ _)
      subst hx
      simp [retval_loop, hf, ih2 (fun r hr => hz r (List.mem_cons_of_mem _ hr)),
        List.range'_succ]

theorem collect_and_teardown_ok (rt : Runtime)
    (hok : ∀ e, e.is_release = true → rt.failed e = false) (shmem_size : Nat)
    (rs : List Nat) (tr : List Event) :
    (∀ k r, rs[k]? = some r → r ≠ 0 → (∀ j, j < k → rs[j]? = some 0) →
      collect_and_teardown rt shmem_size rs tr
        = ⟨.status (process_status (uint_to_int r)),
            tr ++ collect_events rs.length 0 ++ teardown_list shmem_size
            ++ (List.range k).map Event.release_retval⟩) ∧
    ((∀ r ∈ rs, r = 0) →
      collect_and_teardown rt shmem_size rs tr
        = ⟨.status 0, tr ++ collect_events rs.length 0 ++ teardown_list shmem_size
            ++ (List.range rs.length).map Event.release_retval⟩) := by
  obtain ⟨h1, h2⟩ := retval_loop_ok rt hok rs 0
    (tr ++ collect_events rs.length 0 ++ teardown_list shmem_size)
  constructor
  · intro k r hk hr hz
    simp only [collect_and_teardown, collect_loop_ok rt hok, teardown_ok rt hok,
      h1 k r hk hr hz, List.range_eq_range']
  · intro hz
    simp only [collect_and_teardown, collect_loop_ok rt hok, teardown_ok rt hok, h2 hz,
      List.range_eq_range']

/-! ## Which retval buffers are released, whatever the runtime answers -/

theorem retval_releases_append (a b : List Event) :
    retval_releases (a ++ b) = retval_releases a ++ retval_releases b := by
  induction a with
  | nil => rfl
  | cons e es ih => cases e <;> simp [retval_releases, ih]

theorem mem_retval_releases (i : Nat) (tr : List Event) :
    Event.release_retval i ∈ tr ↔ i ∈ retval_releases tr := by
  induction tr with
  | nil => simp [retval_releases]
  | cons e es ih => cases e <;> simp [retval_releases, ih]

theorem collect_loop_retval (rt : Runtime) (n : Nat) : ∀ (i : Nat) (tr : List Event),
    retval_releases (outcome_trace (collect_loop rt n i tr)) = retval_releases tr := by
  induction n with
  | zero => intro i tr; rfl
  | succ n ih =>
    intro i tr
    by_cases hf : rt.failed (.release_queue i) = true
    · simp [collect_loop, hf, outcome_trace, retval_releases_append, retval_releases]
    · simp [collect_loop, hf, ih, retval_releases_append, retval_releases]

theorem teardown_retval (rt : Runtime) (shmem_size : Nat) (tr : List Event) :
    retval_releases (outcome_trace (teardown rt shmem_size tr)) = retval_releases tr := by
  by_cases hs : shmem_size = 0
  · cases h2 : rt.failed .release_args <;> cases h3 : rt.failed .release_kernel <;>
      cases h4 : rt.failed .release_program <;> cases h5 : rt.failed .release_context <;>
      simp [teardown, release, outcome_trace, retval_releases_append, retval_releases, hs,
        h2, h3, h4, h5]
  · cases h1 : rt.failed .release_shmem <;>
      cases h2 : rt.failed .release_args <;> cases h3 : rt.failed .release_kernel <;>
      cases h4 : rt.failed .release_program <;> cases h5 : rt.failed .release_context <;>
      simp [teardown, release, outcome_trace, retval_releases_append, retval_releases, hs,
        h1, h2, h3, h4, h5]

theorem retval_loop_retval (rt : Runtime) (rs : List Nat) : ∀ (i : Nat) (tr : List Event),
    ∃ m, retval_releases (retval_loop rt i rs tr).trace
        = retval_releases tr ++ List.range' i m ∧
      ∀ k r, rs[k]? = some r → r ≠ 0 → m ≤ k := by
  induction rs with
  | nil => intro i tr; exact ⟨0, by simp [retval_loop], fun k r h => by simp at h⟩
  | cons x rest ih =>
    intro i tr
    by_cases hx : x = 0
    · subst hx
      by_cases hf : rt.failed (.release_retval i) = true
      · refine ⟨1, by simp [retval_loop, hf, retval_releases_append, retval_releases], ?_⟩
        intro k r hk hr
        cases k with
        | zero =>
          simp only [List.getElem?_cons_zero, Option.some.injEq] at hk
          exact absurd hk.symm hr
        | succ k => omega
      · obtain ⟨m, h1, h2⟩ := ih (i + 1) (tr ++ [.release_retval i])
        refine ⟨m + 1, ?_, ?_⟩
        · simp [retval_loop, hf, h1, retval_releases_append, retval_releases,
            List.range'_succ]
        · intro k r hk hr
          cases k with
          | zero =>
            simp only [List.getElem?_cons_zero, Option.some.injEq] at hk
            exact absurd hk.symm hr
          | succ k =>
            simp only [List.getElem?_cons_succ] at hk
            have := h2 k r hk hr
            omega
    · exact ⟨0, by simp [retval_loop, hx], fun _ _ _ _ => Nat.zero_le _⟩

theorem collect_and_teardown_retval (rt : Runtime) (shmem_size : Nat) (rs : List Nat)
    (tr : List Event) :
    ∃ m, retval_releases (collect_and_teardown rt shmem_size rs tr).trace
        = retval_releases tr ++ List.range' 0 m ∧
      ∀ k r, rs[k]? = some r → r ≠ 0 → m ≤ k := by
  have hc := collect_loop_retval rt rs.length 0 tr
  unfold collect_and_teardown
  cases h1 : collect_loop rt rs.length 0 tr with
  | error h =>
    rw [h1] at hc
    exact ⟨0, by simpa [outcome_trace] using hc, fun _ _ _ _ => Nat.zero_le _⟩
  | ok tr1 =>
    rw [h1] at hc
    simp only [outcome_trace] at hc
    have ht := teardown_retval rt shmem_size tr1
    cases h2 : teardown rt shmem_size tr1 with
    | error h =>
      rw [h2] at ht
      simp only [outcome_trace] at ht
      exact ⟨0, by simp [h2, ht, hc], fun _ _ _ _ => Nat.zero_le _⟩
    | ok tr2 =>
      rw [h2] at ht
      simp only [outcome_trace] at ht
      obtain ⟨m, h3, h4⟩ := retval_loop_retval rt rs 0 tr2
      exact ⟨m, by simp [h2, h3, ht, hc], h4⟩

theorem mem_collect_events (n : Nat) : ∀ (i j : Nat), i ≤ j → j < i + n →
    Event.map_buffer j ∈ collect_events n i ∧ Event.release_queue j ∈ collect_events n i := by
  induction n with
  | zero => intro i j h1 h2; omega
  | succ n ih =>
    intro i j h1 h2
    by_cases hj : j = i
    · subst hj; simp [collect_events]
    · obtain ⟨h3, h4⟩ := ih (i + 1) j (by omega) (by omega)
      simp [collect_events, h3, h4]

/-! ## What the option `--core` leaves in `cores` and `ncores` -/

theorem range_loop_sorted (fuel : Nat) : ∀ (core end_core : Int) (cores r : List Nat),
    range_loop fuel core end_core cores = .ok r → cores.Sorted (· < ·) → r.Sorted (· < ·) := by
  induction fuel with
  | zero =>
    intro core end_core cores r h hs
    by_cases hle : core ≤ end_core
    · simp [range_loop, hle] at h
    · simp only [range_loop, hle, if_false, Except.ok.injEq] at h
      rw [← h]
      exact hs
  | succ fuel ih =>
    intro core end_core cores r h hs
    by_cases hle : core ≤ end_core
    · by_cases hm : core = INT_MAX
      · rw [range_loop, if_pos hle, if_pos hm] at h
        cases h
      · simp only [range_loop, hle, hm, if_true, if_false] at h
        exact ih _ _ _ r h (sorted_set_insert hs)
    · simp only [range_loop, hle, if_false, Except.ok.injEq] at h
      rw [← h]
      exact hs

theorem parse_token_sorted {s : List Char} {cores r : List Nat}
    (h : parse_token s cores = .ok r) (hs : cores.Sorted (· < ·)) : r.Sorted (· < ·) := by
  unfold parse_token at h
  cases hf : find_char '-' s with
  | none =>
    rw [hf] at h
    cases h1 : stoi s with
    | error e => simp [h1] at h
    | ok v =>
      simp only [h1, Except.ok.injEq] at h
      rw [← h]
      exact sorted_set_insert hs
  | some p =>
    rw [hf] at h
    cases h1 : stoi (List.take p s) with
    | error e => simp [h1] at h
    | ok v =>
      cases h2 : stoi (List.drop (p + 1) s) with
      | error e => simp [h1, h2] at h
      | ok w =>
        simp only [h1, h2] at h
        exact range_loop_sorted _ _ _ _ r h hs

theorem parse_loop_sorted (fuel : Nat) : ∀ (s : List Char) (cores r : List Nat),
    parse_loop fuel s cores = .ok r → cores.Sorted (· < ·) → r.Sorted (· < ·) := by
  induction fuel with
  | zero => intro s cores r h; simp [parse_loop] at h
  | succ fuel ih =>
    intro s cores r h hs
    unfold parse_loop at h
    cases hg : getline s with
    | none =>
      simp only [hg, Except.ok.injEq] at h
      rw [← h]
      exact hs
    | some tr =>
      obtain ⟨t, rest⟩ := tr
      cases hp : parse_token t cores with
      | error e => simp [hg, hp] at h
      | ok c1 =>
        simp only [hg, hp] at h
        exact ih rest c1 r h (parse_token_sorted hp hs)

theorem parse_cores_sorted {b all : Bool} {s : List Char} {cores : List Nat}
    (h : parse_cores b s = .ok (all, cores)) : cores.Sorted (· < ·) := by
  unfold parse_cores at h
  by_cases ha : find_all s = true
  · simp only [ha, if_true, Except.ok.injEq, Prod.mk.injEq] at h
    rw [← h.2]
    exact List.sorted_nil
  · cases hp : parse_loop (s.length + 1) s [] with
    | error e =>
      rw [if_neg ha, hp] at h
      cases h
    | ok c =>
      rw [if_neg ha, hp] at h
      simp only [Except.ok.injEq, Prod.mk.injEq] at h
      rw [← h.2]
      exact parse_loop_sorted _ _ _ _ hp List.sorted_nil

theorem core_option_consistent {o o1 : Options} {s : List Char}
    (h : core_option o s = .ok o1) : o1.consistent := by
  unfold core_option at h
  cases hp : parse_cores o.USE_ALL_CORES s with
  | error e => simp [hp] at h
  | ok r =>
    obtain ⟨all, cores⟩ := r
    have hs := parse_cores_sorted hp
    by_cases hc : all = false ∧ cores.length = 0
    · simp [hp, hc] at h
    · simp only [hp, hc, if_false, Except.ok.injEq] at h
      rw [← h]
      exact ⟨hs, Or.inr rfl⟩

theorem core_options_consistent (optargs : List (List Char)) : ∀ (o o1 : Options),
    core_options o optargs = .ok o1 → o.consistent → o1.consistent := by
  induction optargs with
  | nil =>
    intro o o1 h hc
    simp only [core_options, Except.ok.injEq] at h
    rw [← h]
    exact hc
  | cons s rest ih =>
    intro o o1 h _
    unfold core_options at h
    cases hs : core_option o s with
    | error e => simp [hs] at h
    | ok o2 =>
      simp only [hs] at h
      exact ih o2 o1 h (core_option_consistent hs)

theorem mem_insert_loop (n : Nat) : ∀ (i : Nat) (l : List Nat) (x : Nat),
    x ∈ insert_loop n i l ↔ x ∈ l ∨ (i ≤ x ∧ x < i + n) := by
  induction n with
  | zero => intro i l x; simp [insert_loop]
  | succ n ih =>
    intro i l x
    simp only [insert_loop, ih, mem_set_insert]
    constructor
    · rintro ((h | h) | ⟨h1, h2⟩)
      · right; omega
      · left; exact h
      · right; omega
    · rintro (h | ⟨h1, h2⟩)
      · left; right; exact h
      · by_cases hx : x = i
        · left; left; exact hx
        · right; omega

theorem sorted_length_le {l : List Nat} (hs : l.Sorted (· < ·)) {n : Nat}
    (hb : ∀ c ∈ l, c < n) : l.length ≤ n := by
  have hsub : l ⊆ List.range n := fun c hc => List.mem_range.mpr (hb c hc)
  have := (List.subperm_of_subset hs.nodup hsub).length_le
  simpa using this

theorem range_length_le {l : List Nat} {n : Nat} (hb : ∀ x, x < n → x ∈ l) :
    n ≤ l.length := by
  have hsub : List.range n ⊆ l := fun c hc => hb c (List.mem_range.mp hc)
  have := (List.subperm_of_subset (List.nodup_range n) hsub).length_le
  simpa using this

theorem resolve_consistent {o : Options} (ho : o.consistent) {ndevs : Nat}
    (hc : check_cores ndevs (resolve_cores ndevs o).cores = .ok ()) :
    (resolve_cores ndevs o).ncores = (resolve_cores ndevs o).cores.length ∧
    (resolve_cores ndevs o).ncores ≤ ndevs := by
  have hsorted := sorted_resolve_cores ndevs o ho.1
  have hlt := (check_cores_iff hsorted (resolve_cores_ne_nil ndevs o)).1.mp hc
  have hle := sorted_length_le hsorted hlt
  suffices h : (resolve_cores ndevs o).ncores = (resolve_cores ndevs o).cores.length by
    exact ⟨h, by omega⟩
  obtain ⟨all, cores, nc⟩ := o
  obtain ⟨hs, hn⟩ := ho
  simp only at hs hn
  cases all with
  | false =>
    cases cores with
    | nil => simp [resolve_cores, set_insert]
    | cons y ys =>
      rcases hn with hn | hn
      · cases hn
      · simpa [resolve_cores] using hn
  | true =>
    cases hi : insert_loop ndevs 0 cores with
    | nil => simp [resolve_cores, set_insert, hi]
    | cons y ys =>
      have hres : (resolve_cores ndevs ⟨true, cores, nc⟩).cores = y :: ys := by
        simp [resolve_cores, hi]
      rw [hres] at hle
      have hge : ndevs ≤ (y :: ys).length := by
        apply range_length_le
        intro x hx
        rw [← hi, mem_insert_loop]
        right
        omega
      simp only [resolve_cores, hi]
      simp only [List.length_cons] at hle hge ⊢
      simp
      omega

/-! ## `AllocateAlign` and the sizes of the buffers -/

theorem AllocateAlign_eq {s p : Nat} (hp : 0 < p) (h : s + p - 1 < SIZE_MOD) :
    AllocateAlign p s = (s + p - 1) / p * p := by
  have e1 : (s + p + (SIZE_MOD - 1)) % SIZE_MOD = s + p - 1 := by
    unfold SIZE_MOD at *
    omega
  have hq1 : (s + p - 1) / p * p ≤ s + p - 1 := Nat.div_mul_le_self _ _
  unfold AllocateAlign
  rw [e1, Nat.mod_eq_of_lt (by omega)]

theorem AllocateAlign_bounds {s p : Nat} (hp : 0 < p) (h : s + p - 1 < SIZE_MOD) :
    p ∣ AllocateAlign p s ∧ s ≤ AllocateAlign p s ∧ AllocateAlign p s < s + p ∧
    ∀ k, p ∣ k → s ≤ k → AllocateAlign p s ≤ k := by
  rw [AllocateAlign_eq hp h]
  have hq1 : (s + p - 1) / p * p ≤ s + p - 1 := Nat.div_mul_le_self _ _
  have hq2 : s + p - 1 < (s + p - 1) / p * p + p := by
    have h1 := Nat.div_add_mod (s + p - 1) p
    have h2 := Nat.mod_lt (s + p - 1) hp
    have h3 : p * ((s + p - 1) / p) = (s + p - 1) / p * p := Nat.mul_comm _ _
    omega
  refine ⟨Dvd.intro_left _ rfl, by omega, by omega, ?_⟩
  rintro k ⟨j, rfl⟩ hk
  have hj : (s + p - 1) / p ≤ j := by
    have h1 : (s + p - 1) / p ≤ (p * j + (p - 1)) / p := Nat.div_le_div_right (by omega)
    have h2 : (p * j + (p - 1)) / p = j := by
      rw [Nat.mul_add_div hp, Nat.div_eq_of_lt (by omega)]
      rfl
    omega
  calc (s + p - 1) / p * p ≤ j * p := Nat.mul_le_mul_right p hj
    _ = p * j := Nat.mul_comm _ _

theorem AllocateAlign_idem {s p : Nat} (hp : 0 < p) (h : s + p - 1 < SIZE_MOD)
    (h2 : s + p + p - 1 < SIZE_MOD) :
    AllocateAlign p (AllocateAlign p s) = AllocateAlign p s := by
  obtain ⟨h3, h4, h5, _⟩ := AllocateAlign_bounds hp h
  obtain ⟨_, h7, _, h9⟩ := AllocateAlign_bounds (s := AllocateAlign p s) hp (by omega)
  have := h9 (AllocateAlign p s) h3 (le_refl _)
  omega

theorem CreateBuffer_trace (m : BufferRuntime) (b : Buffer) (size : Nat) (tr : List Event) :
    (CreateBuffer m b size tr).trace = tr ++ [.create_buffer b size] ∨
    (CreateBuffer m b size tr).trace = tr ++ [.create_buffer b size, .set_destructor b] := by
  unfold CreateBuffer
  split
  · exact Or.inl rfl
  · split <;> exact Or.inr (by simp)

theorem CreateBuffer_self (m : BufferRuntime) (b : Buffer) (size : Nat) (tr : List Event) :
    Event.create_buffer b size ∈ (CreateBuffer m b size tr).trace := by
  rcases CreateBuffer_trace m b size tr with ht | ht <;> simp [ht]

theorem CreateBuffer_mono (m : BufferRuntime) (b : Buffer) (size : Nat) (tr : List Event)
    (e : Event) (he : e ∈ tr) : e ∈ (CreateBuffer m b size tr).trace := by
  rcases CreateBuffer_trace m b size tr with ht | ht <;> simp [ht, he]

theorem CreateBuffer_inv (m : BufferRuntime) (b : Buffer) (size : Nat) (tr : List Event)
    (c : Buffer) (n : Nat) (he : Event.create_buffer c n ∈ (CreateBuffer m b size tr).trace) :
    Event.create_buffer c n ∈ tr ∨ (c = b ∧ n = size) := by
  rcases CreateBuffer_trace m b size tr with ht | ht
  · rw [ht] at he
    simpa using he
  · rw [ht] at he
    simpa using he

theorem create_shared_and_args_sizes (m : BufferRuntime) (shmem_size : Nat)
    (args : List (List Nat)) (tr : List Event) (r : Nat × List Event)
    (h : create_shared_and_args m shmem_size args tr = .ok r) :
    Event.create_buffer .args (AllocateAlign m.page_size (kernel_arguments_size args)) ∈ r.2 ∧
    (shmem_size ≠ 0 →
      Event.create_buffer .shmem (AllocateAlign m.page_size shmem_size) ∈ r.2 ∧
      r.1 = AllocateAlign m.page_size shmem_size) ∧
    (∀ b size, Event.create_buffer b size ∈ r.2 → Event.create_buffer b size ∈ tr ∨
      (b = .args ∧ size = AllocateAlign m.page_size (kernel_arguments_size args)) ∨
      (b = .shmem ∧ size = AllocateAlign m.page_size shmem_size)) := by
  unfold create_shared_and_args kernel_arguments_size_aligned at h
  by_cases hs : shmem_size = 0
  · simp only [hs, ne_eq, not_true_eq_false, if_false] at h
    by_cases hn : (CreateBuffer m .args
        (AllocateAlign m.page_size (kernel_arguments_size args)) tr).mem_null = true
    · simp [hn] at h
    · simp only [hn, Bool.false_eq_true, if_false, Except.ok.injEq] at h
      subst h
      refine ⟨CreateBuffer_self _ _ _ _, fun h0 => absurd hs h0, ?_⟩
      intro b size hb
      rcases CreateBuffer_inv _ _ _ _ _ _ hb with h1 | h1
      · exact Or.inl h1
      · exact Or.inr (Or.inl h1)
  · simp only [hs, ne_eq, not_false_eq_true, if_true] at h
    by_cases ha : m.alloc_null .shmem = true
    · simp [ha] at h
    · simp only [ha, Bool.false_eq_true, if_false] at h
      by_cases hn1 : (CreateBuffer m .shmem (AllocateAlign m.page_size shmem_size) tr).mem_null
          = true
      · simp [hn1] at h
      · simp only [hn1, Bool.false_eq_true, if_false] at h
        by_cases hn : (CreateBuffer m .args
            (AllocateAlign m.page_size (kernel_arguments_size args))
            (CreateBuffer m .shmem (AllocateAlign m.page_size shmem_size) tr).trace).mem_null
            = true
        · simp [hn] at h
        · simp only [hn, Bool.false_eq_true, if_false, Except.ok.injEq] at h
          subst h
          refine ⟨CreateBuffer_self _ _ _ _,
            fun _ => ⟨CreateBuffer_mono _ _ _ _ _ (CreateBuffer_self _ _ _ _), rfl⟩, ?_⟩
          intro b size hb
          rcases CreateBuffer_inv _ _ _ _ _ _ hb with h1 | h1
          · rcases CreateBuffer_inv _ _ _ _ _ _ h1 with h2 | h2
            · exact Or.inl h2
            · exact Or.inr (Or.inr h2)
          · exact Or.inr (Or.inl h1)

theorem create_retvals_loop_sizes (m : BufferRuntime) (A : Nat)
    (hAA : AllocateAlign m.page_size A = A) (n : Nat) :
    ∀ (i retval_size : Nat) (tr : List Event) (r : Nat × List Event),
    AllocateAlign m.page_size retval_size = A →
    create_retvals_loop m n i retval_size tr = .ok r →
    (∀ e, e ∈ tr → e ∈ r.2) ∧
    (∀ j, i ≤ j → j < i + n → Event.create_buffer (.retval j) A ∈ r.2) ∧
    (∀ b size, Event.create_buffer b size ∈ r.2 →
      Event.create_buffer b size ∈ tr ∨ size = A) := by
  induction n with
  | zero =>
    intro i rs tr r _ h
    simp only [create_retvals_loop, Except.ok.injEq] at h
    subst h
    exact ⟨fun e he => he, fun j h1 h2 => by omega, fun b size hb => Or.inl hb⟩
  | succ n ih =>
    intro i rs tr r hA h
    unfold create_retvals_loop at h
    by_cases ha : m.alloc_null (.retval i) = true
    · simp [ha] at h
    · simp only [ha, Bool.false_eq_true, if_false, hA] at h
      by_cases hn : (CreateBuffer m (.retval i) A tr).mem_null = true
      · simp [hn] at h
      · simp only [hn, Bool.false_eq_true, if_false] at h
        obtain ⟨h0, h1, h2⟩ := ih (i + 1) A _ r hAA h
        refine ⟨fun e he => h0 e (CreateBuffer_mono _ _ _ _ e he), ?_, ?_⟩
        · intro j hj1 hj2
          by_cases hji : j = i
          · subst hji
            exact h0 _ (CreateBuffer_self _ _ _ _)
          · exact h1 j (by omega) (by omega)
        · intro b size hb
          rcases h2 b size hb with h3 | h3
          · rcases CreateBuffer_inv _ _ _ _ _ _ h3 with h4 | h4
            · exact Or.inl h4
            · exact Or.inr h4.2
          · exact Or.inr h3

/-! ## Decoding of the packed arguments -/

theorem decode_from_string (a : List Nat) (ha : ∀ b ∈ a, b ≠ 0) :
    ∀ (cur rest : List Nat), decode_from (a ++ 0 :: rest) cur =
      if (cur.reverse ++ a).isEmpty then [] else (cur.reverse ++ a) :: decode_from rest [] := by
  induction a with
  | nil =>
    intro cur rest
    cases cur <;> simp [decode_from]
  | cons b bs ih =>
    intro cur rest
    have hb : b ≠ 0 := ha b (List.mem_cons_self _ _)
    have h1 := ih (fun x hx => ha x (List.mem_cons_of_mem _ hx)) (b :: cur) rest
    rw [List.cons_append, decode_from, if_neg hb, h1]
    simp

theorem decode_packed (args : List (List Nat)) (h : ∀ a ∈ args, ∀ b ∈ a, b ≠ 0)
    (pad : List Nat) :
    decode (packed args ++ pad) = args.takeWhile (fun a => !a.isEmpty) := by
  induction args with
  | nil => simp [decode, packed, decode_from]
  | cons a rest ih =>
    have ha := h a (List.mem_cons_self _ _)
    have hr := ih (fun x hx => h x (List.mem_cons_of_mem _ hx))
    have h1 := decode_from_string a ha [] (packed rest ++ pad)
    simp only [List.reverse_nil, List.nil_append] at h1
    unfold decode at hr ⊢
    simp only [packed, List.append_assoc, List.cons_append, h1, hr]
    cases a <;> simp [List.takeWhile]

theorem pack_arguments_eq (args : List (List Nat)) (buffer : List Nat)
    (h : kernel_arguments_size args ≤ buffer.length) :
    pack_arguments args buffer = packed args ++ buffer.drop (packed args).length := by
  have hsize : kernel_arguments_size args = (packed args).length := by
    rw [length_packed, kernel_arguments_size, foldl_size]
    omega
  have := pack_split args [] buffer (by omega)
  simpa [pack_arguments] using this

/-! ## The entry symbol after the option loop -/

theorem entry_symbol_cons (symbol : List Char) (opt : Opt) (rest : List Opt) :
    entry_symbol symbol (opt :: rest) = entry_symbol (entry_symbol symbol [opt]) rest := by
  cases opt <;> rfl

theorem core_case_func {a a1 : Args} {optarg : Option (List Char)}
    (h : core_case a optarg = .ok a1) : a1.func_name = a.func_name := by
  unfold core_case at h
  cases optarg with
  | none => simp at h
  | some text =>
    cases hc : core_option a.core text with
    | error e => simp [hc] at h
    | ok o =>
      simp only [hc, Except.ok.injEq] at h
      rw [← h]

theorem shmem_case_func {a a1 : Args} {optarg : List Char}
    (h : shmem_case a optarg = .ok a1) : a1.func_name = ELCORECL_RUN_WRAPPER := by
  unfold shmem_case at h
  cases hc : atoi optarg with
  | none => simp [hc] at h
  | some v =>
    simp only [hc, Except.ok.injEq] at h
    rw [← h]

theorem option_double_func {a a1 : Args} {opt : Opt} (h : option_double a opt = .ok a1) :
    a1.func_name = entry_symbol a.func_name [opt] := by
  cases opt with
  | help => simp [option_double] at h
  | elf f =>
    simp only [option_double] at h
    split at h <;>
    · simp only [Except.ok.injEq] at h
      rw [← h]
      rfl
  | func name =>
    simp only [option_double, Except.ok.injEq] at h
    rw [← h]
    rfl
  | platform optarg =>
    simp only [option_double] at h
    cases hc : atoi optarg with
    | none => simp [hc] at h
    | some v =>
      simp only [hc, Except.ok.injEq] at h
      rw [← h]
      rfl
  | shmem optarg => exact shmem_case_func h
  | init_sync_file f =>
    simp only [option_double, Except.ok.injEq] at h
    rw [← h]
    rfl
  | wait_for_file f =>
    simp only [option_double, Except.ok.injEq] at h
    rw [← h]
    rfl
  | core optarg => exact core_case_func h
  | unknown => simp [option_double] at h

theorem option_run_func {a a1 : Args} {opt : Opt} (h : option_run a opt = .ok a1) :
    a1.func_name = entry_symbol a.func_name [opt] ∧ ∀ name, opt ≠ .func name := by
  cases opt with
  | help => simp [option_run] at h
  | elf f =>
    simp only [option_run, Except.ok.injEq] at h
    rw [← h]
    exact ⟨rfl, fun _ hn => by cases hn⟩
  | func name => simp [option_run] at h
  | platform optarg => simp [option_run] at h
  | shmem optarg => exact ⟨shmem_case_func h, fun _ hn => by cases hn⟩
  | init_sync_file f =>
    simp only [option_run, Except.ok.injEq] at h
    rw [← h]
    exact ⟨rfl, fun _ hn => by cases hn⟩
  | wait_for_file f =>
    simp only [option_run, Except.ok.injEq] at h
    rw [← h]
    exact ⟨rfl, fun _ hn => by cases hn⟩
  | core optarg => exact ⟨core_case_func h, fun _ hn => by cases hn⟩
  | unknown => simp [option_run] at h

theorem option_loop_double_func (opts : List Opt) : ∀ (a a1 : Args),
    option_loop option_double a opts = .ok a1 →
    a1.func_name = entry_symbol a.func_name opts := by
  induction opts with
  | nil =>
    intro a a1 h
    simp only [option_loop, Except.ok.injEq] at h
    rw [← h]
    rfl
  | cons opt rest ih =>
    intro a a1 h
    unfold option_loop at h
    cases hs : option_double a opt with
    | error e => simp [hs] at h
    | ok a2 =>
      simp only [hs] at h
      rw [entry_symbol_cons, ← option_double_func hs]
      exact ih a2 a1 h

theorem option_loop_run_func (opts : List Opt) : ∀ (a a1 : Args),
    option_loop option_run a opts = .ok a1 →
    a1.func_name = entry_symbol a.func_name opts ∧ ∀ name, Opt.func name ∉ opts := by
  induction opts with
  | nil =>
    intro a a1 h
    simp only [option_loop, Except.ok.injEq] at h
    rw [← h]
    exact ⟨rfl, fun _ hn => by cases hn⟩
  | cons opt rest ih =>
    intro a a1 h
    unfold option_loop at h
    cases hs : option_run a opt with
    | error e => simp [hs] at h
    | ok a2 =>
      simp only [hs] at h
      obtain ⟨h1, h2⟩ := option_run_func hs
      obtain ⟨h3, h4⟩ := ih a2 a1 h
      refine ⟨by rw [entry_symbol_cons, ← h1]; exact h3, ?_⟩
      intro name hn
      rcases List.mem_cons.mp hn with hn | hn
      · exact h2 name hn.symm
      · exact h4 name hn

/-! ## The failures of `parse_cores` -/

theorem stoi_error_kind {s : List Char} {e : Failure} (h : stoi s = .error e) :
    e = .invalid_argument ∨ e = .out_of_range := by
  unfold stoi at h
  dsimp only at h
  split_ifs at h <;> cases h
  · exact Or.inl rfl
  · exact Or.inr rfl
  · exact Or.inr rfl

theorem stoi_le_int_max {s : List Char} {v : Int} (h : stoi s = .ok v) : v ≤ 2147483647 := by
  unfold stoi at h
  dsimp only at h
  split_ifs at h with h1 h2 h3 <;> cases h <;> simp only [INT_MIN, INT_MAX] at * <;> omega

theorem range_loop_total (fuel : Nat) : ∀ (core end_core : Int) (cores : List Nat),
    end_core < 2147483647 → fuel = (end_core + 1 - core).toNat →
    ∃ r, range_loop fuel core end_core cores = .ok r := by
  induction fuel with
  | zero =>
    intro core end_core cores _ hf
    have hlt : ¬ core ≤ end_core := by omega
    exact ⟨cores, by simp [range_loop, hlt]⟩
  | succ fuel ih =>
    intro core end_core cores he hf
    have hle : core ≤ end_core := by omega
    have hne : core ≠ INT_MAX := by simp only [INT_MAX]; omega
    obtain ⟨r, hr⟩ := ih (core + 1) end_core (set_insert (to_uint core) cores) he (by omega)
    exact ⟨r, by simp [range_loop, hle, hne, hr]⟩

theorem parse_token_error_kind {t : List Char} {cores : List Nat} {e : Failure}
    (hmax : ends_at_int_max t = false) (h : parse_token t cores = .error e) :
    e = .invalid_argument ∨ e = .out_of_range := by
  unfold parse_token at h
  unfold ends_at_int_max at hmax
  cases hf : find_char '-' t with
  | none =>
    rw [hf] at h
    cases h1 : stoi t with
    | error e1 =>
      rw [h1] at h
      cases h
      exact stoi_error_kind h1
    | ok v =>
      rw [h1] at h
      cases h
  | some p =>
    rw [hf] at h hmax
    dsimp only at h hmax
    cases h1 : stoi (List.take p t) with
    | error e1 =>
      rw [h1] at h
      cases h
      exact stoi_error_kind h1
    | ok lo =>
      cases h2 : stoi (List.drop (p + 1) t) with
      | error e2 =>
        rw [h1, h2] at h
        cases h
        exact stoi_error_kind h2
      | ok hi =>
        rw [h1, h2] at h
        rw [h2] at hmax
        have hlt : hi < 2147483647 := by
          have hle := stoi_le_int_max h2
          have hne : hi ≠ INT_MAX := by simpa using hmax
          simp only [INT_MAX] at hne
          omega
        obtain ⟨r, hr⟩ := range_loop_total _ lo hi cores hlt rfl
        simp only at h
        rw [hr] at h
        cases h

theorem fold_tokens_stoi_failure {toks : List (List Char)}
    (h : ∃ t ∈ toks, non_numeric t = true)
    (hmax : ∀ t ∈ toks, ends_at_int_max t = false) :
    ∀ cores : List Nat, ∃ e, (e = .invalid_argument ∨ e = .out_of_range) ∧
      fold_tokens toks cores = .error e := by
  induction toks with
  | nil => obtain ⟨t, ht, _⟩ := h; cases ht
  | cons t ts ih =>
    intro cores
    obtain ⟨u, hu, hn⟩ := h
    cases hp : parse_token t cores with
    | error e =>
      exact ⟨e, parse_token_error_kind (hmax t (List.mem_cons_self _ _)) hp,
        by simp only [fold_tokens, hp]⟩
    | ok cores1 =>
      rcases List.mem_cons.mp hu with rfl | hu
      · obtain ⟨e, he⟩ := parse_token_non_numeric hn cores
        rw [he] at hp
        cases hp
      · obtain ⟨e, hk, he⟩ := ih ⟨u, hu, hn⟩
          (fun x hx => hmax x (List.mem_cons_of_mem _ hx)) cores1
        exact ⟨e, hk, by simp only [fold_tokens, hp, he]⟩

/-- The conversion of a decimal number followed by text that does not continue it. -/
theorem stoi_leading {ds tail : List Char} (hd : is_decimal ds = true)
    (hv : digits_value ds ≤ 2147483647)
    (hhead : ∀ c ∈ tail.head?, isdigit c = false) :
    stoi (ds ++ tail) = .ok (digits_value ds : Int) := by
  cases ds with
  | nil => simp [is_decimal] at hd
  | cons c cs =>
    have hall : (c :: cs).all isdigit = true := by
      simpa [is_decimal] using hd
    have hc : isdigit c = true := by
      simp only [List.all_cons, Bool.and_eq_true] at hall
      exact hall.1
    have h1 : skip_space (c :: cs ++ tail) = c :: cs ++ tail := by
      simp [skip_space, isdigit_not_space hc]
    have hm : c ≠ '-' := isdigit_ne hc (by decide)
    have hp : c ≠ '+' := isdigit_ne hc (by decide)
    have hbody : (match skip_space (c :: cs ++ tail) with
        | '-' :: r => (true, r)
        | '+' :: r => (false, r)
        | r => (false, r)) = (false, c :: cs ++ tail) := by
      rw [h1]
      split
      · rename_i heq; simp at heq; exact absurd heq.1 hm
      · rename_i heq; simp at heq; exact absurd heq.1 hp
      · rfl
    have htake : (c :: cs ++ tail).takeWhile isdigit = c :: cs := by
      cases tail with
      | nil => rw [List.append_nil]; exact all_takeWhile hall
      | cons x xs =>
        exact takeWhile_stop x xs (decimal_digits hd) (hhead x (by simp))
    unfold stoi
    simp only [hbody, htake]
    simp only [INT_MIN, INT_MAX]
    have h0 : (0 : Int) ≤ (digits_value (c :: cs) : Int) := Int.ofNat_nonneg _
    have h2 : (digits_value (c :: cs) : Int) ≤ 2147483647 := by exact_mod_cast hv
    simp
    omega

theorem parse_token_leading {ds tail : List Char} (hd : is_decimal ds = true)
    (hv : digits_value ds ≤ 2147483647)
    (hhead : ∀ c ∈ tail.head?, isdigit c = false)
    (hdash : ∀ c ∈ tail, c ≠ '-') (cores : List Nat) :
    parse_token (ds ++ tail) cores = .ok (set_insert (digits_value ds) cores) := by
  have hf : find_char '-' (ds ++ tail) = none := by
    apply find_char_none
    intro x hx
    rcases List.mem_append.mp hx with hx | hx
    · exact isdigit_ne (decimal_digits hd x hx) (by decide)
    · exact hdash x hx
  simp only [parse_token, hf, stoi_leading hd hv hhead, to_uint_of_nat (show digits_value ds < 4294967296 by omega)]

theorem parse_cores_leading {ds tail : List Char} (hd : is_decimal ds = true)
    (hv : digits_value ds ≤ 2147483647)
    (hhead : ∀ c ∈ tail.head?, isdigit c = false)
    (hdash : ∀ c ∈ tail, c ≠ '-') (hcomma : ∀ c ∈ tail, c ≠ ',')
    (hall : find_all (ds ++ tail) = false) (b : Bool) :
    parse_cores b (ds ++ tail) = .ok (b, [digits_value ds]) := by
  have hne : ds ++ tail ≠ [] := by
    intro hn
    exact decimal_ne_nil hd (List.append_eq_nil.mp hn).1
  have hc : ∀ x ∈ ds ++ tail, x ≠ ',' := by
    intro x hx
    rcases List.mem_append.mp hx with hx | hx
    · exact isdigit_ne (decimal_digits hd x hx) (by decide)
    · exact hcomma x hx
  have hlen : (ds ++ tail).length + 1 = ((ds ++ tail).length - 1) + 1 + 1 := by
    have := List.length_pos.mpr hne
    omega
  have hl : parse_loop ((ds ++ tail).length + 1) (ds ++ tail) [] = .ok [digits_value ds] := by
    have hend : ∀ (n : Nat) (cs : List Nat), parse_loop (n + 1) [] cs = .ok cs := by
      intro n cs
      rfl
    rw [hlen, parse_loop, getline_last hne hc]
    dsimp only
    rw [parse_token_leading hd hv hhead hdash]
    dsimp only
    rw [hend]
    rfl
  simp only [parse_cores, hall, hl]
  rfl

/-! # The claims -/

/-- C1, amended: for every expression made of decimal numbers `n <= 2147483647` and ranges
`lo-hi` with `lo <= hi < 2147483647` separated by commas (such an expression never contains
`all`), `parse_cores` returns a set: its elements, in iteration order, are strictly
ascending and without duplicates, and they are exactly the numbers `n` and the integers of
the inclusive intervals. The expression `0,4-6,9` gives `0,4,5,6,9`. -/
theorem parse_cores_well_formed (b : Bool) (toks : List CoreToken)
    (h : ∀ t ∈ toks, t.decimal = true ∧ t.ascending = true ∧ t.in_int = true) :
    find_all (expression toks) = false ∧
    (∃ cores, parse_cores b (expression toks) = .ok (b, cores) ∧
      cores.Sorted (· < ·) ∧ cores.Nodup ∧
      ∀ x : Nat, x ∈ cores ↔ ∃ t ∈ toks, t.covers x) ∧
    parse_cores b "0,4-6,9".toList = .ok (b, [0, 4, 5, 6, 9]) := by
  refine ⟨find_all_expression (fun t ht => (h t ht).1), ?_, ?_⟩
  · obtain ⟨cores, hc, hs, hm⟩ :=
      parse_cores_spec b toks (fun t ht => ⟨(h t ht).1, (h t ht).2.2⟩)
    exact ⟨cores, hc, hs, hs.nodup, hm⟩
  · cases b <;> rfl

/-- C1, witness: the expression `0,4-6,9`. -/
theorem parse_cores_well_formed_witness :
    (∀ t ∈ [CoreToken.single "0".toList, CoreToken.range "4".toList "6".toList,
        CoreToken.single "9".toList],
      t.decimal = true ∧ t.ascending = true ∧ t.in_int = true) ∧
    parse_cores false (expression [CoreToken.single "0".toList,
      CoreToken.range "4".toList "6".toList, CoreToken.single "9".toList])
      = .ok (false, [0, 4, 5, 6, 9]) :=
  ⟨by decide,
   (parse_cores_well_formed false [CoreToken.single "0".toList,
      CoreToken.range "4".toList "6".toList, CoreToken.single "9".toList]
      (by decide)).2.2⟩

/-- C1 as stated fails: `2147483648` is a non-negative decimal integer and the expression
does not contain `all`, but `std::stoi` throws `std::out_of_range` and no set is
returned. -/
theorem parse_cores_out_of_range :
    is_decimal "2147483648".toList = true ∧
    find_all "2147483648".toList = false ∧
    parse_cores false "2147483648".toList = .error .out_of_range ∧
    ¬ (∀ toks : List CoreToken, (∀ t ∈ toks, t.decimal = true ∧ t.ascending = true) →
        ∃ cores, parse_cores false (expression toks) = .ok (false, cores) ∧
          cores.Sorted (· < ·) ∧ ∀ x : Nat, x ∈ cores ↔ ∃ t ∈ toks, t.covers x) := by
  refine ⟨rfl, rfl, rfl, ?_⟩
  intro hall
  obtain ⟨cores, hc, _⟩ := hall [CoreToken.single "2147483648".toList] (by decide)
  have he : parse_cores false (expression [CoreToken.single "2147483648".toList])
      = .error .out_of_range := rfl
  rw [he] at hc
  cases hc

/-- C2, amended: after a successful join, on a run in which no release call fails, for
return values `r_0, ..., r_(n-1)` held by the 4-byte retval buffers, `main` returns `r_k`
for the least index `k` with `r_k != 0` (converted to `int`, the same 32 bits), and the
exit status of the process is its low 8 bits: `r_k mod 256`, which is `r_k` itself when
`r_k < 256`. When every `r_i` is `0` the exit status is `0`. The values `0,0,5,0` give 5
and `0,0,0,0` give 0. -/
theorem exit_status (rt : Runtime) (shmem_size : Nat) (retvals : List Nat) (tr : List Event)
    (hw : ∀ n, rt.failed (.wait_for_events n) = false)
    (hok : ∀ e, e.is_release = true → rt.failed e = false)
    (hb : ∀ r ∈ retvals, r < 4294967296) :
    (∀ k r : Nat, retvals[k]? = some r → r ≠ 0 → (∀ j : Nat, j < k → retvals[j]? = some 0) →
      uint_to_int r % 4294967296 = (r : Int) ∧
      (join rt shmem_size retvals tr).exit = .status (process_status (uint_to_int r)) ∧
      (join rt shmem_size retvals tr).exit = .status (r % 256) ∧
      (r < 256 → (join rt shmem_size retvals tr).exit = .status r)) ∧
    ((∀ r ∈ retvals, r = 0) → (join rt shmem_size retvals tr).exit = .status 0) ∧
    (join rt shmem_size [0, 0, 5, 0] tr).exit = .status 5 ∧
    (join rt shmem_size [0, 0, 0, 0] tr).exit = .status 0 := by
  have hj : ∀ rs : List Nat, join rt shmem_size rs tr
      = collect_and_teardown rt shmem_size rs (tr ++ [.wait_for_events rs.length]) := by
    intro rs
    simp [join, wait_all, hw]
  refine ⟨?_, ?_, ?_, ?_⟩
  · intro k r hk hr hz
    have he : (join rt shmem_size retvals tr).exit
        = .status (process_status (uint_to_int r)) := by
      rw [hj, (collect_and_teardown_ok rt hok shmem_size retvals _).1 k r hk hr hz]
    have hlt32 : r < 4294967296 := hb r (List.getElem?_mem hk)
    refine ⟨?_, he, ?_, ?_⟩
    · unfold uint_to_int
      split <;> omega
    · rw [he, process_status_uint]
    · intro hlt
      rw [he, process_status_uint, Nat.mod_eq_of_lt hlt]
  · intro hz
    rw [hj, (collect_and_teardown_ok rt hok shmem_size retvals _).2 hz]
  · rw [hj, (collect_and_teardown_ok rt hok shmem_size [0, 0, 5, 0] _).1 2 5 rfl
      (by decide) (by intro j hj; match j, hj with
        | 0, _ => rfl
        | 1, _ => rfl)]
    rfl
  · rw [hj, (collect_and_teardown_ok rt hok shmem_size [0, 0, 0, 0] _).2 (by decide)]

/-- C2, witness: a runtime in which nothing fails and the values `0,263,0,3`: the exit
status is 7, the low 8 bits of 263. -/
theorem exit_status_witness :
    (∀ n, (⟨[], fun _ => false⟩ : Runtime).failed (.wait_for_events n) = false) ∧
    (∀ e, e.is_release = true → (⟨[], fun _ => false⟩ : Runtime).failed e = false) ∧
    (∀ r ∈ [0, 263, 0, 3], r < 4294967296) ∧
    (join ⟨[], fun _ => false⟩ 0 [0, 263, 0, 3] []).exit = .status (263 % 256) :=
  ⟨fun _ => rfl, fun _ _ => rfl, by decide,
   ((exit_status ⟨[], fun _ => false⟩ 0 [0, 263, 0, 3] [] (fun _ => rfl) (fun _ _ => rfl)
     (by decide)).1 1 263 rfl (by decide) (by intro j hj; match j, hj with
        | 0, _ => rfl)).2.2.1⟩

/-- C2 as stated fails: with the return values `0,256` the first nonzero value is 256, and
`main` returns it, but the exit status of the process keeps the low 8 bits: it is 0, not
256. With the value `4294967295` it is 255. -/
theorem exit_status_keeps_low_byte :
    (join ⟨[], fun _ => false⟩ 0 [0, 256] []).exit = .status 0 ∧
    (join ⟨[], fun _ => false⟩ 0 [0, 256] []).exit ≠ .status 256 ∧
    (join ⟨[], fun _ => false⟩ 0 [4294967295] []).exit = .status 255 := by
  refine ⟨rfl, ?_, rfl⟩
  have h : (join ⟨[], fun _ => false⟩ 0 [0, 256] []).exit = .status 0 := rfl
  rw [h]
  decide

/-- C3: for every list of argument strings and every buffer with room for the logical
size, the packing loop and the final store leave, from offset 0, exactly the bytes of each
argument followed by one NUL and then one more NUL; the rest of the buffer is as it was.
The logical size computed beforehand is the length of that content, the sum of the lengths
plus `n + 1`. The arguments `a`, `bb` give the 6 bytes `a\0bb\0\0`, the empty list a single
NUL. -/
theorem pack_layout (args : List (List Nat)) (buffer : List Nat)
    (h : kernel_arguments_size args ≤ buffer.length) :
    (pack_arguments args buffer).take (kernel_arguments_size args) = packed args ∧
    (pack_arguments args buffer).drop (kernel_arguments_size args)
      = buffer.drop (kernel_arguments_size args) ∧
    kernel_arguments_size args = (packed args).length ∧
    kernel_arguments_size args = (args.map List.length).sum + args.length + 1 ∧
    packed [[97], [98, 98]] = [97, 0, 98, 98, 0, 0] ∧
    kernel_arguments_size [[97], [98, 98]] = 6 ∧
    packed [] = [0] := by
  have hsize : kernel_arguments_size args = (packed args).length := by
    rw [length_packed, kernel_arguments_size, foldl_size]
    omega
  have hp : pack_arguments args buffer
      = packed args ++ buffer.drop (packed args).length := by
    have := pack_split args [] buffer (by omega)
    simpa [pack_arguments] using this
  refine ⟨?_, ?_, hsize, ?_, rfl, rfl, rfl⟩
  · rw [hp, hsize, List.take_left]
  · rw [hp, hsize, List.drop_left]
  · rw [hsize, length_packed]

/-- C3, witness: the arguments `a`, `bb` packed into a buffer of 8 bytes. -/
theorem pack_layout_witness :
    kernel_arguments_size [[97], [98, 98]] ≤ [1, 2, 3, 4, 5, 6, 7, 8].length ∧
    (pack_arguments [[97], [98, 98]] [1, 2, 3, 4, 5, 6, 7, 8]).take
      (kernel_arguments_size [[97], [98, 98]]) = packed [[97], [98, 98]] :=
  ⟨by decide, (pack_layout [[97], [98, 98]] [1, 2, 3, 4, 5, 6, 7, 8] (by decide)).1⟩

/-- C4: when the expression of `--core` contains `all` anywhere, whatever else it
contains and whatever the earlier options left in `cores`, and the runtime enumerates
`ndevs >= 1` devices, the option is accepted, the resolved core set is exactly
`0, 1, ..., ndevs - 1`, `ncores` is `ndevs` and the range check passes; `all` with 4 devices
gives `0,1,2,3`. -/
theorem all_selects_every_device (o : Options) (s : List Char) (ndevs : Nat)
    (hall : find_all s = true) (hn : 1 ≤ ndevs) :
    core_option o s = .ok ⟨true, [], 0⟩ ∧
    resolve_cores ndevs ⟨true, [], 0⟩ = ⟨true, List.range ndevs, ndevs⟩ ∧
    check_cores ndevs (List.range ndevs) = .ok () ∧
    (core_option o "all".toList).map (fun o1 => (resolve_cores 4 o1).cores)
      = .ok [0, 1, 2, 3] := by
  have hr : insert_loop ndevs 0 [] = List.range ndevs := by
    have := insert_loop_range ndevs 0
    simpa using this
  have hne : List.range ndevs ≠ [] := by
    intro h
    have := congrArg List.length h
    simp at this
    omega
  refine ⟨?_, ?_, ?_, ?_⟩
  · simp [core_option, parse_cores, hall]
  · have hn0 : ndevs ≠ 0 := by omega
    simp [resolve_cores, hr, hn0]
  · refine (check_cores_iff (List.sorted_lt_range ndevs) hne).1.mpr ?_
    exact fun c hc => List.mem_range.mp hc
  · have h1 : core_option o "all".toList = .ok ⟨true, [], 0⟩ := by
      simp only [core_option]
      rfl
    rw [h1]
    rfl

/-- C4, witness: the expression `1,all,zz` with 4 devices. -/
theorem all_selects_every_device_witness :
    find_all "1,all,zz".toList = true ∧ 1 ≤ 4 ∧
    core_option ⟨false, [7], 1⟩ "1,all,zz".toList = .ok ⟨true, [], 0⟩ ∧
    resolve_cores 4 ⟨true, [], 0⟩ = ⟨true, List.range 4, 4⟩ :=
  ⟨rfl, by decide,
   (all_selects_every_device ⟨false, [7], 1⟩ "1,all,zz".toList 4 rfl (by decide)).1,
   (all_selects_every_device ⟨false, [7], 1⟩ "1,all,zz".toList 4 rfl (by decide)).2.1⟩

/-- C5: after the resolution of lines 178-186 the run gets past the range check of line 188
if and only if every resolved index is below the device count. When some resolved index is
at or above the device count, the process ends with exit status 1 and nothing has happened
since the check: no device is selected. -/
theorem range_check (rt : Runtime) (o : Options) (tr : List Event)
    (hs : o.cores.Sorted (· < ·)) :
    (check_cores rt.all_devices.length (resolve_cores rt.all_devices.length o).cores = .ok ()
      ↔ ∀ c ∈ (resolve_cores rt.all_devices.length o).cores, c < rt.all_devices.length) ∧
    ((∃ c ∈ (resolve_cores rt.all_devices.length o).cores, rt.all_devices.length ≤ c) →
      resolution rt o tr = .error ⟨.status 1, tr⟩) := by
  have h := @check_cores_iff rt.all_devices.length _
    (sorted_resolve_cores rt.all_devices.length o hs) (resolve_cores_ne_nil _ o)
  refine ⟨h.1, fun hex => ?_⟩
  simp only [resolution, h.2 hex]

/-- C5, witness: cores `0,5` with 4 devices. -/
theorem range_check_witness :
    List.Sorted (· < ·) [0, 5] ∧
    resolution ⟨[10, 11, 12, 13], fun _ => false⟩ ⟨false, [0, 5], 2⟩ []
      = .error ⟨.status 1, []⟩ :=
  ⟨by simp,
   (range_check ⟨[10, 11, 12, 13], fun _ => false⟩ ⟨false, [0, 5], 2⟩ [] (by simp)).2
     ⟨5, by decide, by decide⟩⟩

/-- C6: on a run in which no call of the runtime fails, for every resolved core set
`c_0, ..., c_(n-1)` (all below the device count, in the iteration order of the set) the
devices selected are, in that order, the devices enumerated at the indices `c_i`; exactly
`n` kernel launches are enqueued, the `i`-th on `queue[i]`, bound to the device of index
`c_i`; and the text printed by the launch is `run c_0 ... c_(n-1) and wait all n cores`.
For `--core=0-1` and at least two devices, the output is `ncores=2 ndevs=N`, then
`run 0 1 and wait all 2 cores`. -/
theorem launch_order (rt : Runtime) (hok : ∀ e, rt.failed e = false) (shmem_size : Nat)
    (cores : List Nat) (hin : ∀ c ∈ cores, c < rt.all_devices.length)
    (tr0 tr : List Event) :
    (∃ selected tr1,
      select_loop rt.all_devices cores [] tr0 = .ok (selected, tr1) ∧
      selected.map some = cores.map (fun c => rt.all_devices[c]?) ∧
      ∃ new, launch rt shmem_size cores cores.length selected tr = .ok (tr ++ new) ∧
        launches new = numbered 0 selected ∧
        (launches new).length = cores.length ∧
        stdout new = "run".toList ++ core_list cores ++ " and wait all ".toList
          ++ fmt_d cores.length ++ " cores\n".toList) ∧
    (2 ≤ rt.all_devices.length →
      core_option ⟨false, [], 0⟩ "0-1".toList = .ok ⟨false, [0, 1], 2⟩ ∧
      ∃ d0 d1 tr1 new,
        resolution rt ⟨false, [0, 1], 2⟩ [] = .ok (⟨false, [0, 1], 2⟩, [d0, d1], tr1) ∧
        stdout tr1 = "ncores=2 ndevs=".toList ++ fmt_d rt.all_devices.length ++ "\n".toList ∧
        launch rt shmem_size [0, 1] 2 [d0, d1] tr = .ok (tr ++ new) ∧
        launches new = [(0, d0), (1, d1)] ∧
        stdout new = "run 0 1 and wait all 2 cores\n".toList) := by
  constructor
  · obtain ⟨picked, tr1, h1, h2⟩ := select_loop_ok rt.all_devices cores [] tr0 hin
    simp only [List.nil_append] at h1
    have hl : picked.length = cores.length := by
      have := congrArg List.length h2
      simpa using this
    obtain ⟨new, h3, h4, h5⟩ := launch_ok rt hok shmem_size cores picked hl tr
    refine ⟨picked, tr1, h1, h2, new, h3, h4, ?_, h5⟩
    rw [h4]
    have hn : ∀ (l : List Nat) (i : Nat), (numbered i l).length = l.length := by
      intro l
      induction l with
      | nil => intro i; rfl
      | cons d ds ih => intro i; simp [numbered, ih]
    rw [hn, hl]
  · intro h2
    refine ⟨rfl, ?_⟩
    obtain ⟨devs, failed⟩ := rt
    match devs, h2 with
    | d0 :: d1 :: rest, _ =>
      obtain ⟨new, h3, h4, h5⟩ :=
        launch_ok ⟨d0 :: d1 :: rest, failed⟩ hok shmem_size [0, 1] [d0, d1] rfl tr
      refine ⟨d0, d1, [.get_device_ids, .select 0 d0, .select 1 d1,
        .print ("ncores=".toList ++ fmt_d 2 ++ " ndevs=".toList
          ++ fmt_d (d0 :: d1 :: rest).length ++ "\n".toList)], new, ?_, ?_, h3, h4, ?_⟩
      · have hf : failed Event.get_device_ids = false := hok _
        simp [resolution, resolve_cores, check_cores, select_loop, hf]
      · simp [stdout]
        rfl
      · rw [h5]
        rfl

/-- C6, witness: the cores `1,3` on a runtime of four devices in which nothing fails. -/
theorem launch_order_witness :
    (∀ e, (⟨[10, 11, 12, 13], fun _ => false⟩ : Runtime).failed e = false) ∧
    (∀ c ∈ [1, 3], c < (⟨[10, 11, 12, 13], fun _ => false⟩ : Runtime).all_devices.length) ∧
    ∃ selected tr1,
      select_loop [10, 11, 12, 13] [1, 3] [] [] = .ok (selected, tr1) ∧
      selected.map some = [1, 3].map (fun c => [10, 11, 12, 13][c]?) ∧
      ∃ new, launch ⟨[10, 11, 12, 13], fun _ => false⟩ 0 [1, 3] [1, 3].length selected []
          = .ok ([] ++ new) ∧
        launches new = numbered 0 selected ∧
        (launches new).length = [1, 3].length ∧
        stdout new = "run".toList ++ core_list [1, 3] ++ " and wait all ".toList
          ++ fmt_d [1, 3].length ++ " cores\n".toList :=
  ⟨fun _ => rfl, by decide,
   (launch_order ⟨[10, 11, 12, 13], fun _ => false⟩ (fun _ => rfl) 0 [1, 3] (by decide)
     [] []).1⟩

/-- C8, amended: for every expression that does not contain `all` and in which no range
ends at 2147483647, if some token read by the `getline` loop is not numeric where
`std::stoi` looks (the whole token when it has no dash, else the text before or after its
first dash does not start, after optional white space and sign, with a digit), then
`parse_cores` returns no core set: `std::stoi` throws `std::invalid_argument` or
`std::out_of_range`, and `main` is terminated by it. A token without a dash that starts with
a decimal number of at most 2147483647 and goes on with text that is not a digit raises no
failure: the number is inserted, and an expression made of such a token alone gives the set
of that one number. -/
theorem non_numeric_token_fails (o : Options) (s : List Char) (hall : find_all s = false)
    (hmax : ∀ t ∈ comma_tokens s, ends_at_int_max t = false)
    (h : ∃ t ∈ comma_tokens s, non_numeric t = true) :
    (∃ e, (e = .invalid_argument ∨ e = .out_of_range) ∧
      parse_cores o.USE_ALL_CORES s = .error e ∧
      core_option o s = .error (.terminate e)) ∧
    (∀ (ds tail : List Char) (cores : List Nat), is_decimal ds = true →
      digits_value ds ≤ 2147483647 → (∀ c ∈ tail.head?, isdigit c = false) →
      (∀ c ∈ tail, c ≠ '-') →
      parse_token (ds ++ tail) cores = .ok (set_insert (digits_value ds) cores) ∧
      ((∀ c ∈ tail, c ≠ ',') → find_all (ds ++ tail) = false →
        parse_cores o.USE_ALL_CORES (ds ++ tail) =
          .ok (o.USE_ALL_CORES, [digits_value ds]))) := by
  constructor
  · obtain ⟨e, hk, he⟩ := fold_tokens_stoi_failure h hmax []
    have hl : parse_loop (s.length + 1) s [] = .error e := by
      rw [parse_loop_fold _ _ _ (Nat.lt_succ_self _), he]
    refine ⟨e, hk, ?_, ?_⟩
    · simp [parse_cores, hall, hl]
    · simp [core_option, parse_cores, hall, hl]
  · intro ds tail cores hd hv hhead hdash
    exact ⟨parse_token_leading hd hv hhead hdash cores,
      fun hcomma hfa => parse_cores_leading hd hv hhead hdash hcomma hfa _⟩

/-- C8, witness: the expression `1,x`, which ends in `std::invalid_argument`, and the token
`7x`, which inserts 7. -/
theorem non_numeric_token_fails_witness :
    find_all "1,x".toList = false ∧
    (∀ t ∈ comma_tokens "1,x".toList, ends_at_int_max t = false) ∧
    (∃ t ∈ comma_tokens "1,x".toList, non_numeric t = true) ∧
    parse_cores false "1,x".toList = .error .invalid_argument ∧
    (∃ e, (e = .invalid_argument ∨ e = .out_of_range) ∧
      parse_cores false "1,x".toList = .error e ∧
      core_option ⟨false, [], 0⟩ "1,x".toList = .error (.terminate e)) ∧
    parse_token ("7".toList ++ "x".toList) [2] = .ok (set_insert (digits_value "7".toList) [2]) :=
  ⟨rfl, by decide, ⟨"x".toList, by decide, by decide⟩, rfl,
   (non_numeric_token_fails ⟨false, [], 0⟩ "1,x".toList rfl (by decide)
     ⟨"x".toList, by decide, by decide⟩).1,
   ((non_numeric_token_fails ⟨false, [], 0⟩ "1,x".toList rfl (by decide)
     ⟨"x".toList, by decide, by decide⟩).2 "7".toList "x".toList [2] rfl (by decide)
     (by simp [isdigit]) (by decide)).1⟩

/-- C8 as stated fails: the only token of `5x` is neither a decimal integer nor a range of
two, and the expression does not contain `all`, but `std::stoi` converts the leading `5`
and ignores the rest: `parse_cores` returns the set `{5}`. -/
theorem trailing_text_accepted :
    find_all "5x".toList = false ∧
    comma_tokens "5x".toList = ["5x".toList] ∧
    matches_grammar "5x".toList = false ∧
    parse_cores false "5x".toList = .ok (false, [5]) ∧
    core_option ⟨false, [], 0⟩ "5x".toList = .ok ⟨false, [5], 1⟩ :=
  ⟨rfl, rfl, rfl, rfl, rfl⟩

/-- C9: on a run in which every per-core return value is zero, the release calls made
from the collection on are a prefix of this order: the queue of each core in ascending
index, the shared buffer when `shmem_size` is not zero, the arguments buffer, the kernel,
the program, the context, each retval buffer in ascending index. When none of them fails
they are all made, in exactly that order, and `main` returns 0. When the release at some
position `k` reports a failure, the process exits with status 1 and the releases made are
the first `j + 1` of the order for some `j <= k`: none after position `k` is made. -/
theorem release_order_fatal (rt : Runtime) (shmem_size : Nat) (retvals : List Nat)
    (tr : List Event) (hz : ∀ r ∈ retvals, r = 0) :
    ((∀ e ∈ release_order retvals.length shmem_size, rt.failed e = false) →
      releases (collect_and_teardown rt shmem_size retvals tr).trace
        = releases tr ++ release_order retvals.length shmem_size ∧
      (collect_and_teardown rt shmem_size retvals tr).exit = .status 0) ∧
    (∀ k e, (release_order retvals.length shmem_size)[k]? = some e → rt.failed e = true →
      (collect_and_teardown rt shmem_size retvals tr).exit = .status 1 ∧
      ∃ j, j ≤ k ∧ releases (collect_and_teardown rt shmem_size retvals tr).trace
        = releases tr ++ (release_order retvals.length shmem_size).take (j + 1)) := by
  obtain ⟨h1, h2⟩ := collect_and_teardown_zero rt shmem_size retvals tr hz
  constructor
  · intro hok
    rw [h1, h2, run_releases_ok _ _ hok]
    exact ⟨rfl, rfl⟩
  · intro k e hk he
    obtain ⟨h3, j, hj, h4⟩ := run_releases_fail rt.failed _ k e hk he
    rw [h1, h2, h3, h4]
    exact ⟨rfl, j, hj, rfl⟩

/-- C9, witness: two cores, a shared buffer, and a runtime in which the release of the
kernel (position 4 of the order) fails. -/
theorem release_order_fatal_witness :
    (∀ r ∈ [0, 0], r = 0) ∧
    (release_order 2 1)[4]? = some Event.release_kernel ∧
    (collect_and_teardown ⟨[], fun e => e == .release_kernel⟩ 1 [0, 0] []).exit
      = .status 1 ∧
    ∃ j, j ≤ 4 ∧
      releases (collect_and_teardown ⟨[], fun e => e == .release_kernel⟩ 1 [0, 0] []).trace
        = releases [] ++ (release_order 2 1).take (j + 1) :=
  ⟨by decide, rfl,
   (release_order_fatal ⟨[], fun e => e == .release_kernel⟩ 1 [0, 0] [] (by decide)).2
     4 .release_kernel rfl rfl⟩

/-- C10, amended: when the first nonzero return value is at index `k`, no retval buffer of
index `k` or more is released, whatever the runtime answers. The other two steps are not
stopped by it: on a run in which no release fails, the retval buffer of every core is mapped
and the queue of every core is released (in the collection loop, before any value is
inspected), then the teardown is done and the retval buffers of the indices below `k` are
released. -/
theorem first_nonzero_keeps_retval_buffers (rt : Runtime) (shmem_size : Nat)
    (retvals : List Nat) (k r : Nat) (hk : retvals[k]? = some r) (hr : r ≠ 0)
    (hz : ∀ j : Nat, j < k → retvals[j]? = some 0) :
    (∀ i, k ≤ i →
      Event.release_retval i ∉ (collect_and_teardown rt shmem_size retvals []).trace) ∧
    ((∀ e, e.is_release = true → rt.failed e = false) →
      (collect_and_teardown rt shmem_size retvals []).trace
        = collect_events retvals.length 0 ++ teardown_list shmem_size
          ++ (List.range k).map Event.release_retval ∧
      ∀ i, i < retvals.length →
        Event.map_buffer i ∈ (collect_and_teardown rt shmem_size retvals []).trace ∧
        Event.release_queue i ∈ (collect_and_teardown rt shmem_size retvals []).trace) := by
  constructor
  · intro i hi hmem
    obtain ⟨m, h1, h2⟩ := collect_and_teardown_retval rt shmem_size retvals []
    rw [mem_retval_releases, h1] at hmem
    have hm := h2 k r hk hr
    simp [retval_releases, List.mem_range'] at hmem
    omega
  · intro hok
    have h := (collect_and_teardown_ok rt hok shmem_size retvals []).1 k r hk hr hz
    rw [h]
    refine ⟨by simp, ?_⟩
    intro i hi
    obtain ⟨h1, h2⟩ := mem_collect_events retvals.length 0 i (Nat.zero_le _) (by omega)
    simp [h1, h2]

/-- C10, witness: the values `5,0` on a runtime in which nothing fails. -/
theorem first_nonzero_keeps_retval_buffers_witness :
    [5, 0][0]? = some 5 ∧ 5 ≠ 0 ∧
    (∀ i, 0 ≤ i → Event.release_retval i
      ∉ (collect_and_teardown ⟨[], fun _ => false⟩ 0 [5, 0] []).trace) :=
  ⟨rfl, by decide,
   (first_nonzero_keeps_retval_buffers ⟨[], fun _ => false⟩ 0 [5, 0] 0 5 rfl (by decide)
     (by intro j hj; omega)).1⟩

/-- C10 as stated fails: with the values `5,0` the first nonzero value is at index 0, and
still the retval buffer of core 1 is mapped and the queue of core 1 is released; only its
retval buffer is left unreleased. -/
theorem later_records_are_collected :
    (collect_and_teardown ⟨[], fun _ => false⟩ 0 [5, 0] []).exit = .status 5 ∧
    Event.map_buffer 1 ∈ (collect_and_teardown ⟨[], fun _ => false⟩ 0 [5, 0] []).trace ∧
    Event.release_queue 1 ∈ (collect_and_teardown ⟨[], fun _ => false⟩ 0 [5, 0] []).trace ∧
    Event.release_retval 1 ∉ (collect_and_teardown ⟨[], fun _ => false⟩ 0 [5, 0] []).trace := by
  refine ⟨rfl, ?_, ?_, ?_⟩ <;> decide

/-- C11, the code at failing inputs: `main` does not use the value that `CreateBuffer`
returns, it only tests the handle. On one core, when the registration of the destructor
callback of the arguments buffer fails, or when `eclCreateBuffer` reports a failure code
for the retval buffer together with a handle, `CreateBuffer` returns the failure and `main`
goes on: the kernel is enqueued. The process aborts with exit status 1 before any launch
only when the handle is null. -/
theorem failed_buffer_does_not_abort :
    (CreateBuffer ⟨4096, fun _ => false, fun _ => false, fun _ => false, fun b => b == .args⟩
      .args 4096 []).failed = true ∧
    (buffers_and_launch
        ⟨4096, fun _ => false, fun _ => false, fun _ => false, fun b => b == .args⟩
        ⟨[10], fun _ => false⟩ 0 [[107]] [0] 1 [10] []).map launches = .ok [(0, 10)] ∧
    (CreateBuffer ⟨4096, fun _ => false, fun _ => false, fun b => b == .retval 0, fun _ => false⟩
      (.retval 0) 4096 []).failed = true ∧
    (buffers_and_launch
        ⟨4096, fun _ => false, fun _ => false, fun b => b == .retval 0, fun _ => false⟩
        ⟨[10], fun _ => false⟩ 0 [[107]] [0] 1 [10] []).map launches = .ok [(0, 10)] ∧
    buffers_and_launch
        ⟨4096, fun _ => false, fun b => b == .args, fun _ => false, fun _ => false⟩
        ⟨[10], fun _ => false⟩ 0 [[107]] [0] 1 [10] []
      = .error ⟨.status 1, [.create_buffer .args 4096]⟩ :=
  ⟨rfl, rfl, rfl, rfl, rfl⟩

/-- C12, amended: for every sequence of command-line options with which the option loop
completes, in both variants, the entry symbol left in `func_name`, with which the kernel is
created, is the one set by the last `-f` or `-s` option of the sequence: the name given by
`-f` when that option is `-f <name>`, `_elcorecl_run_wrapper` when it is `-s` (also when a
`-f` comes before it), and `_elcore_main_wrapper` when there is neither. -/
theorem entry_symbol_last_option (ncores : Nat) (relf : Option (List Char))
    (opts : List Opt) (a : Args) :
    (option_loop option_double (initial_args ncores relf) opts = .ok a →
      a.func_name = entry_symbol ELCORE_MAIN_WRAPPER opts) ∧
    (option_loop option_run (initial_args ncores relf) opts = .ok a →
      a.func_name = entry_symbol ELCORE_MAIN_WRAPPER opts) ∧
    entry_symbol ELCORE_MAIN_WRAPPER [] = "_elcore_main_wrapper".toList ∧
    (∀ (symbol name : List Char) (before : List Opt),
      entry_symbol symbol (before ++ [.func name]) = name) ∧
    (∀ (symbol optarg : List Char) (before : List Opt),
      entry_symbol symbol (before ++ [.shmem optarg]) = "_elcorecl_run_wrapper".toList) := by
  refine ⟨fun h => option_loop_double_func opts _ a h,
    fun h => (option_loop_run_func opts _ a h).1, rfl, ?_, ?_⟩
  · intro symbol name before
    induction before generalizing symbol with
    | nil => rfl
    | cons opt rest ih => rw [List.cons_append, entry_symbol_cons, ih]
  · intro symbol optarg before
    induction before generalizing symbol with
    | nil => rfl
    | cons opt rest ih => rw [List.cons_append, entry_symbol_cons, ih]

/-- C12, witness: `-s 8 -f x` in `cl-double.cc` leaves `x`, `-e k.elf -s 8` in
`elcorecl-run.cc` leaves `_elcorecl_run_wrapper`. -/
theorem entry_symbol_last_option_witness :
    (option_loop option_double (initial_args 0 none)
        [.elf "a".toList, .elf "b".toList, .shmem "8".toList, .func "x".toList]).map
      Args.func_name = .ok "x".toList ∧
    (option_loop option_run (initial_args 0 none)
        [.elf "k.elf".toList, .shmem "8".toList]).map Args.func_name
      = .ok ELCORECL_RUN_WRAPPER ∧
    "x".toList = entry_symbol ELCORE_MAIN_WRAPPER
      [.elf "a".toList, .elf "b".toList, .shmem "8".toList, .func "x".toList] :=
  ⟨rfl, rfl,
   (entry_symbol_last_option 0 none
     [.elf "a".toList, .elf "b".toList, .shmem "8".toList, .func "x".toList]
     ⟨⟨false, [], 0⟩, "x".toList, some "a".toList, some "b".toList, 0, 8, none, none⟩).1 rfl⟩

/-- C12 as stated fails: in `cl-double.cc` the options `-e a -e b -f x -s 8` give the name
`x` with `-f`, but the `-s` that follows replaces it: the kernel is created with
`_elcorecl_run_wrapper`. -/
theorem shmem_option_overrides_func :
    specified_symbol [.elf "a".toList, .elf "b".toList, .func "x".toList, .shmem "8".toList]
      = "x".toList ∧
    (option_loop option_double (initial_args 0 none)
        [.elf "a".toList, .elf "b".toList, .func "x".toList, .shmem "8".toList]).map
      Args.func_name = .ok "_elcorecl_run_wrapper".toList ∧
    "_elcorecl_run_wrapper".toList ≠ "x".toList :=
  ⟨rfl, rfl, by decide⟩

/-- In `elcorecl-run.cc` the option `-f` is in the option string but the `switch` has no
case for it: the process ends with exit status 1, and no kernel is created. -/
theorem run_rejects_func_option :
    option_loop option_run (initial_args 0 none) [.elf "k.elf".toList, .func "x".toList]
      = .error (.status 1) := rfl

/-- C13: for every requested size `s` and page size `p > 0` with `s + p - 1` representable
in `size_t`, `AllocateAlign` replaces `s` by the least multiple of `p` that is `>= s`: the
result is a multiple of `p`, is `>= s`, is `< s + p`, and is at most any multiple of `p`
that is `>= s`. The size handed to `eclCreateBuffer` is the aligned one: for the arguments
buffer the aligned `kernel_arguments_size`, for the shared buffer the aligned `shmem_size`
(which `shmem_size` then holds), and, the page size being an `int`, for every retval buffer
the aligned `sizeof(ecl_uint)`. -/
theorem allocate_align_least_multiple (m : BufferRuntime) (s : Nat) (hp : 0 < m.page_size)
    (h : s + m.page_size - 1 < SIZE_MOD) :
    m.page_size ∣ AllocateAlign m.page_size s ∧
    s ≤ AllocateAlign m.page_size s ∧
    AllocateAlign m.page_size s < s + m.page_size ∧
    (∀ k, m.page_size ∣ k → s ≤ k → AllocateAlign m.page_size s ≤ k) ∧
    (∀ (shmem_size : Nat) (args : List (List Nat)) (tr : List Event) (r : Nat × List Event),
      create_shared_and_args m shmem_size args tr = .ok r →
      Event.create_buffer .args (AllocateAlign m.page_size (kernel_arguments_size args)) ∈ r.2 ∧
      (shmem_size ≠ 0 →
        Event.create_buffer .shmem (AllocateAlign m.page_size shmem_size) ∈ r.2 ∧
        r.1 = AllocateAlign m.page_size shmem_size) ∧
      (∀ b size, Event.create_buffer b size ∈ r.2 → Event.create_buffer b size ∈ tr ∨
        (b = .args ∧ size = AllocateAlign m.page_size (kernel_arguments_size args)) ∨
        (b = .shmem ∧ size = AllocateAlign m.page_size shmem_size))) ∧
    (m.page_size < 2147483648 →
      ∀ (ncores : Nat) (tr : List Event) (r : Nat × List Event),
      create_retvals m ncores tr = .ok r →
      (∀ j, j < ncores →
        Event.create_buffer (.retval j) (AllocateAlign m.page_size 4) ∈ r.2) ∧
      (∀ b size, Event.create_buffer b size ∈ r.2 →
        Event.create_buffer b size ∈ tr ∨ size = AllocateAlign m.page_size 4)) := by
  obtain ⟨h1, h2, h3, h4⟩ := AllocateAlign_bounds hp h
  refine ⟨h1, h2, h3, h4, ?_, ?_⟩
  · intro shmem_size args tr r hr
    exact create_shared_and_args_sizes m shmem_size args tr r hr
  · intro hint ncores tr r hr
    have hidem : AllocateAlign m.page_size (AllocateAlign m.page_size 4)
        = AllocateAlign m.page_size 4 :=
      AllocateAlign_idem hp (by unfold SIZE_MOD; omega) (by unfold SIZE_MOD; omega)
    obtain ⟨_, h6, h7⟩ := create_retvals_loop_sizes m (AllocateAlign m.page_size 4) hidem
      ncores 0 4 tr r rfl hr
    exact ⟨fun j hj => h6 j (Nat.zero_le _) (by omega), h7⟩

/-- C13, witness: 6 bytes and pages of 4096 bytes. -/
theorem allocate_align_least_multiple_witness :
    0 < 4096 ∧ 6 + 4096 - 1 < SIZE_MOD ∧
    4096 ∣ AllocateAlign 4096 6 ∧ 6 ≤ AllocateAlign 4096 6 ∧
    AllocateAlign 4096 6 < 6 + 4096 :=
  ⟨by decide, by decide,
   (allocate_align_least_multiple
     ⟨4096, fun _ => false, fun _ => false, fun _ => false, fun _ => false⟩ 6
     (by decide) (by decide)).1,
   (allocate_align_least_multiple
     ⟨4096, fun _ => false, fun _ => false, fun _ => false, fun _ => false⟩ 6
     (by decide) (by decide)).2.1,
   (allocate_align_least_multiple
     ⟨4096, fun _ => false, fun _ => false, fun _ => false, fun _ => false⟩ 6
     (by decide) (by decide)).2.2.1⟩

/-- C14, amended: an explicitly supplied core expression that yields no index (it does not
contain `all` and `parse_cores` returns the empty set, as for the empty string) does not
default to `{0}`: when `USE_ALL_CORES` is not set, the run is aborted with exit status 1
(`Failed to parse cores`); when an earlier `--core` option has set `USE_ALL_CORES`, the
empty set is accepted and the resolution selects every device. The set defaults to `{0}`
only when no `--core` option is supplied. -/
theorem empty_core_set_aborts (o : Options) (s : List Char) (all : Bool)
    (hna : find_all s = false) (h : parse_cores o.USE_ALL_CORES s = .ok (all, [])) :
    (o.USE_ALL_CORES = false → core_option o s = .error (.status 1)) ∧
    (o.USE_ALL_CORES = true → core_option o s = .ok ⟨true, [], 0⟩) ∧
    (∀ ncores0 ndevs : Nat, resolve_cores ndevs ⟨false, [], ncores0⟩ = ⟨false, [0], 1⟩) := by
  have hall : all = o.USE_ALL_CORES := by
    unfold parse_cores at h
    rw [hna] at h
    cases hp : parse_loop (s.length + 1) s [] with
    | error e => simp [hp] at h
    | ok c =>
      simp only [hp, Bool.false_eq_true, if_false, Except.ok.injEq, Prod.mk.injEq] at h
      exact h.1.symm
  subst hall
  refine ⟨?_, ?_, ?_⟩
  · intro hf
    simp only [core_option]
    rw [h]
    simp [hf]
  · intro ht
    simp only [core_option]
    rw [h]
    simp [ht]
  · intro ncores0 ndevs
    simp [resolve_cores, set_insert]

/-- C14, witness: the empty string, given as the first `--core` option. -/
theorem empty_core_set_aborts_witness :
    find_all "".toList = false ∧
    parse_cores false "".toList = .ok (false, []) ∧
    core_option ⟨false, [], 5⟩ "".toList = .error (.status 1) :=
  ⟨rfl, rfl, (empty_core_set_aborts ⟨false, [], 5⟩ "".toList false rfl rfl).1 rfl⟩

/-- C14 as stated fails: the empty string is an explicit core expression that yields no
index, and the option loop ends the process with exit status 1 on it; the same holds of
`3-1`. No core set, `{0}` or other, is used. -/
theorem empty_spec_exits :
    parse_cores false "".toList = .ok (false, []) ∧
    core_option ⟨false, [], 0⟩ "".toList = .error (.status 1) ∧
    option_loop option_run (initial_args 0 none) [.elf "k.elf".toList, .core (some "".toList)]
      = .error (.status 1) ∧
    parse_cores false "3-1".toList = .ok (false, []) ∧
    core_option ⟨false, [], 0⟩ "3-1".toList = .error (.status 1) :=
  ⟨rfl, rfl, rfl, rfl, rfl⟩

/-- C15: for every list of argument strings none of which contains a NUL byte, decoding
the packed content (whatever follows it in the buffer) returns the arguments before the
first empty one; so it returns the original list if and only if no argument is the empty
string. This holds of the layout `packed` and of the buffer that `main` fills. -/
theorem decode_packed_arguments (args : List (List Nat)) (buffer : List Nat)
    (hnul : ∀ a ∈ args, ∀ b ∈ a, b ≠ 0) (hroom : kernel_arguments_size args ≤ buffer.length) :
    decode (packed args) = args.takeWhile (fun a => !a.isEmpty) ∧
    (decode (packed args) = args ↔ ∀ a ∈ args, a ≠ []) ∧
    decode (pack_arguments args buffer) = args.takeWhile (fun a => !a.isEmpty) ∧
    (decode (pack_arguments args buffer) = args ↔ ∀ a ∈ args, a ≠ []) := by
  have h1 : decode (packed args) = args.takeWhile (fun a => !a.isEmpty) := by
    have := decode_packed args hnul []
    simpa using this
  have h2 : decode (pack_arguments args buffer) = args.takeWhile (fun a => !a.isEmpty) := by
    rw [pack_arguments_eq args buffer hroom]
    exact decode_packed args hnul _
  have h3 : args.takeWhile (fun a => !a.isEmpty) = args ↔ ∀ a ∈ args, a ≠ [] := by
    rw [List.takeWhile_eq_self_iff]
    constructor
    · intro h a ha
      have := h a ha
      intro hn
      subst hn
      simp at this
    · intro h a ha
      have := h a ha
      cases a with
      | nil => exact absurd rfl this
      | cons x xs => rfl
  exact ⟨h1, by rw [h1]; exact h3, h2, by rw [h2]; exact h3⟩

/-- C15, witness: the arguments `a`, the empty string and `bb`: decoding returns `a` only. -/
theorem decode_packed_arguments_witness :
    (∀ a ∈ [[97], [], [98, 98]], ∀ b ∈ a, b ≠ 0) ∧
    kernel_arguments_size [[97], [], [98, 98]] ≤ [1, 2, 3, 4, 5, 6, 7, 8].length ∧
    decode (pack_arguments [[97], [], [98, 98]] [1, 2, 3, 4, 5, 6, 7, 8])
      = [[97], [], [98, 98]].takeWhile (fun a => !a.isEmpty) :=
  ⟨by decide, by decide,
   (decode_packed_arguments [[97], [], [98, 98]] [1, 2, 3, 4, 5, 6, 7, 8]
     (by decide) (by decide)).2.2.1⟩

/-- C16: for every sequence of `--core` options that the option loop accepts and every
device count, whenever the range check of line 188 passes, `ncores` is the number of
elements of the resolved core set and `ncores <= ndevs`: the condition `ndevs < ncores` of
the later error branch is false, and lines 178-200 end in that check, in the failure of
`eclGetDeviceIDs`, or go on with the selected devices. -/
theorem ncores_is_count (ncores0 : Nat) (optargs : List (List Char)) (o : Options)
    (rt : Runtime) (tr : List Event)
    (ho : core_options ⟨false, [], ncores0⟩ optargs = .ok o)
    (hc : check_cores rt.all_devices.length
      (resolve_cores rt.all_devices.length o).cores = .ok ()) :
    (resolve_cores rt.all_devices.length o).ncores
      = (resolve_cores rt.all_devices.length o).cores.length ∧
    (resolve_cores rt.all_devices.length o).ncores ≤ rt.all_devices.length ∧
    ¬ rt.all_devices.length < (resolve_cores rt.all_devices.length o).ncores ∧
    (rt.failed .get_device_ids = true →
      resolution rt o tr = .error ⟨.status 1, tr ++ [.get_device_ids]⟩) ∧
    (rt.failed .get_device_ids = false →
      ∃ selected tr1, resolution rt o tr
        = .ok (resolve_cores rt.all_devices.length o, selected, tr1)) := by
  have hcons : o.consistent :=
    core_options_consistent optargs _ o ho ⟨List.sorted_nil, Or.inl rfl⟩
  obtain ⟨h1, h2⟩ := resolve_consistent hcons hc
  have hlt := (check_cores_iff (sorted_resolve_cores rt.all_devices.length o hcons.1)
    (resolve_cores_ne_nil rt.all_devices.length o)).1.mp hc
  refine ⟨h1, h2, by omega, ?_, ?_⟩
  · intro hf
    simp [resolution, hc, hf]
  · intro hf
    obtain ⟨picked, tr1, h3, _⟩ := select_loop_ok rt.all_devices
      (resolve_cores rt.all_devices.length o).cores [] (tr ++ [.get_device_ids]) hlt
    have hn : ¬ rt.all_devices.length < (resolve_cores rt.all_devices.length o).ncores := by
      omega
    simp only [List.nil_append] at h3
    refine ⟨picked, tr1 ++ [.print ("ncores=".toList
      ++ fmt_d (resolve_cores rt.all_devices.length o).ncores ++ " ndevs=".toList
      ++ fmt_d rt.all_devices.length ++ "\n".toList)], ?_⟩
    simp only [resolution, hc, hf, h3, hn, if_false, Bool.false_eq_true]

/-- C16, witness: the options `--core=7 --core=0-1` on four devices. -/
theorem ncores_is_count_witness :
    core_options ⟨false, [], 9⟩ ["7".toList, "0-1".toList] = .ok ⟨false, [0, 1], 2⟩ ∧
    check_cores 4 (resolve_cores 4 ⟨false, [0, 1], 2⟩).cores = .ok () ∧
    (resolve_cores 4 ⟨false, [0, 1], 2⟩).ncores
      = (resolve_cores 4 ⟨false, [0, 1], 2⟩).cores.length ∧
    (resolve_cores 4 ⟨false, [0, 1], 2⟩).ncores ≤ 4 :=
  ⟨rfl, rfl,
   (ncores_is_count 9 ["7".toList, "0-1".toList] ⟨false, [0, 1], 2⟩
     ⟨[10, 11, 12, 13], fun _ => false⟩ [] rfl rfl).1,
   (ncores_is_count 9 ["7".toList, "0-1".toList] ⟨false, [0, 1], 2⟩
     ⟨[10, 11, 12, 13], fun _ => false⟩ [] rfl rfl).2.1⟩

end ElcoreclRun
